import Mathlib

/-!
go-pixelate: colour quantisation (k-means) and block pixelation

A shallow embedding of `main.go` and the properties of its specification.

Modelling conventions.

* Channel arithmetic is modelled at machine width: `uint32` channels are natural
  numbers, the `int64` arithmetic of `sqDist` wraps into `[-2^63, 2^63)`, the `uint64`
  accumulators of the update step wrap modulo `2^64`, and the conversions to `uint32` and
  `uint8` reduce modulo `2^32` and `2^8`.
* Go `int` is the 64-bit `int` of the amd64 and arm64 builds. The one `int` product
  of the program, `i*len(pixels)` of the stride index, is modelled with its wrap into
  `[-2^63, 2^63)` and Go's truncated division. Slice lengths, loop counters and image
  coordinates, which only count up to a length or a bound, are `Nat` and `Int`.
* A run-time panic (index out of range, `make` with a negative length) is the value
  `none`.
* A loop whose step is the caller-supplied `pixelSize` may fail to terminate; it is
  modelled with a fuel argument and `none` means the fuel ran out.
-/

namespace GoPixelate

/-! ## Data model -/

/-- The `pixel` struct of `main.go`: four `uint32` channels. -/
structure pixel where
  R : Nat
  G : Nat
  B : Nat
  A : Nat
deriving DecidableEq, Repr

/-- The zero value of `pixel`, what `make([]pixel, n)` and `var nearest pixel` hold. -/
def pixel.zero : pixel := ⟨0, 0, 0, 0⟩

/-- Every channel is in the 16-bit range `0..65535` that `color.Color.RGBA()` returns. -/
def pixel.chan16 (p : pixel) : Prop :=
  p.R ≤ 65535 ∧ p.G ≤ 65535 ∧ p.B ≤ 65535 ∧ p.A ≤ 65535

instance (p : pixel) : Decidable p.chan16 := by
  unfold pixel.chan16; infer_instance

/-! ## Machine integers -/

/-- Two's-complement wrap of an integer into the `int64` range `[-2^63, 2^63)`. -/
def wrapInt64 (x : Int) : Int :=
  (x + 9223372036854775808) % 18446744073709551616 - 9223372036854775808

/-- Conversion `uint64(x)` of an `int64` value: reduction modulo `2^64`. -/
def toUint64 (x : Int) : Nat := (x % 18446744073709551616).toNat

/-- The value lies in the `int64` range, so computing it in `int64` does not wrap. -/
def inInt64 (x : Int) : Prop := -9223372036854775808 ≤ x ∧ x ≤ 9223372036854775807

/-! ## Colour distance -/

/-- Function `sqDist` of `main.go`: the `int64` differences, squares and sums, each
wrapped, converted to `uint64` at the end. -/
def sqDist (p1 p2 : pixel) : Nat :=
  let dr := wrapInt64 ((p1.R : Int) - (p2.R : Int))
  let dg := wrapInt64 ((p1.G : Int) - (p2.G : Int))
  let db := wrapInt64 ((p1.B : Int) - (p2.B : Int))
  let da := wrapInt64 ((p1.A : Int) - (p2.A : Int))
  toUint64 (wrapInt64 (wrapInt64 (wrapInt64 (wrapInt64 (dr * dr) + wrapInt64 (dg * dg))
    + wrapInt64 (db * db)) + wrapInt64 (da * da)))

/-- The exact sum of the squared channel differences, over the unbounded integers. -/
def exactSqDist (p1 p2 : pixel) : Int :=
  ((p1.R : Int) - p2.R) ^ 2 + ((p1.G : Int) - p2.G) ^ 2 + ((p1.B : Int) - p2.B) ^ 2
    + ((p1.A : Int) - p2.A) ^ 2

/-- None of the `int64` operations of `sqDist` wraps: the four differences, the four
squares and the three partial sums, taken over the unbounded integers, are all in the
`int64` range. -/
def sqDistNoWrap (p1 p2 : pixel) : Prop :=
  let dr := (p1.R : Int) - p2.R
  let dg := (p1.G : Int) - p2.G
  let db := (p1.B : Int) - p2.B
  let da := (p1.A : Int) - p2.A
  inInt64 dr ∧ inInt64 dg ∧ inInt64 db ∧ inInt64 da ∧
  inInt64 (dr * dr) ∧ inInt64 (dg * dg) ∧ inInt64 (db * db) ∧ inInt64 (da * da) ∧
  inInt64 (dr * dr + dg * dg) ∧ inInt64 (dr * dr + dg * dg + db * db) ∧
  inInt64 (dr * dr + dg * dg + db * db + da * da)

/-- Index `j` holds `c`, and `c` is the first centroid at minimal distance from `p`:
no centroid is closer and every centroid at a lower index is strictly farther. -/
def firstNearest (centroids : List pixel) (p : pixel) (j : Nat) (c : pixel) : Prop :=
  centroids[j]? = some c
    ∧ (∀ (i : Nat) (c2 : pixel), centroids[i]? = some c2 → sqDist p c ≤ sqDist p c2)
    ∧ (∀ (i : Nat) (c2 : pixel), i < j → centroids[i]? = some c2 → sqDist p c < sqDist p c2)

/-! ## Images -/

/-- A well-formed `image.Rectangle`: the corner `Min` and the non-negative extent
`Dx`, `Dy`; `Max` is `Min` plus the extent. -/
structure Rectangle where
  minX : Int
  minY : Int
  dx : Nat
  dy : Nat

/-- Field `Max.X` of the rectangle. -/
def Rectangle.maxX (r : Rectangle) : Int := r.minX + r.dx

/-- Field `Max.Y` of the rectangle. -/
def Rectangle.maxY (r : Rectangle) : Int := r.minY + r.dy

/-- Test `image.Point{x, y}.In(r)`. -/
def Rectangle.In (r : Rectangle) (x y : Int) : Prop :=
  r.minX ≤ x ∧ x < r.maxX ∧ r.minY ≤ y ∧ y < r.maxY

instance (r : Rectangle) (x y : Int) : Decidable (r.In x y) := by
  unfold Rectangle.In; infer_instance

/-- A source `image.Image` as `quantize` reads it: its `Bounds()` and, for each
coordinate, the four values of `At(x, y).RGBA()`. -/
structure Image where
  Bounds : Rectangle
  At : Int → Int → pixel

/-- The 8-bit colour `color.RGBA`. -/
structure RGBA where
  R : Nat
  G : Nat
  B : Nat
  A : Nat
deriving DecidableEq, Repr

/-- The zero colour `color.RGBA{}`. -/
def RGBA.zero : RGBA := ⟨0, 0, 0, 0⟩

/-- An `*image.RGBA`: its rectangle and the colour stored for each cell. -/
structure RGBAImage where
  Rect : Rectangle
  Pix : Int → Int → RGBA

/-- Constructor `image.NewRGBA(r)`: every cell is the zero colour. -/
def NewRGBA (r : Rectangle) : RGBAImage := ⟨r, fun _ _ => RGBA.zero⟩

/-- Method `(*image.RGBA).At`: the stored colour, the zero colour outside the
rectangle. -/
def RGBAImage.At (m : RGBAImage) (x y : Int) : RGBA :=
  if m.Rect.In x y then m.Pix x y else RGBA.zero

/-- Method `(*image.RGBA).Set` with a `color.RGBA` argument: stores the colour
unchanged, and does nothing outside the rectangle. -/
def RGBAImage.Set (m : RGBAImage) (x y : Int) (c : RGBA) : RGBAImage :=
  if m.Rect.In x y then
    ⟨m.Rect, fun u v => if u = x ∧ v = y then c else m.Pix u v⟩
  else m

/-! ## Loops -/

/-- The counted loop `for v := lo; v < hi; v++ { body }` threading a state. -/
def forRange {σ : Type} (lo hi : Int) (body : Int → σ → σ) (init : σ) : σ :=
  (List.range (hi - lo).toNat).foldl (fun st (i : Nat) => body (lo + (i : Int)) st) init

/-- The loop `for v := start; v < hi; v += step { body }`, which stops making
progress when `step ≤ 0`; `none` when the fuel runs out before the loop exits. -/
def forStep {σ : Type} (hi step : Int) (body : Int → σ → Option σ) :
    Nat → Int → σ → Option σ
  | fuel, v, st =>
    if v < hi then
      match fuel with
      | 0 => none
      | fuel + 1 => (body v st).bind (forStep hi step body fuel (v + step))
    else some st

/-! ## quantize -/

/-- Lines 19-27: the pixel list, in row-major scan order. -/
def collectPixels (img : Image) : List pixel :=
  forRange img.Bounds.minY img.Bounds.maxY (fun y pixels =>
    forRange img.Bounds.minX img.Bounds.maxX (fun x pixels =>
      pixels ++ [img.At x y]) pixels) []

/-- The `int` value of a product of two non-negative `int` operands whose exact value
is `x`: `x` modulo `2^64`, read as a two's-complement 64-bit number. -/
def wrapProduct (x : Nat) : Int :=
  if x % 18446744073709551616 < 9223372036854775808 then
    ((x % 18446744073709551616 : Nat) : Int)
  else ((x % 18446744073709551616 : Nat) : Int) - 18446744073709551616

/-- Line 33: the index expression `i*len(pixels)/numColors` in Go's `int`: the product
wraps into the `int64` range and the division truncates toward zero. -/
def strideIndex (i len numColors : Nat) : Int :=
  Int.tdiv (wrapProduct (i * len)) (numColors : Int)

/-- The slice read `pixels[idx]` with an `int` index: a panic when the index is
negative or not below the length. -/
def indexAt (pixels : List pixel) (idx : Int) : Option pixel :=
  if idx < 0 then none else pixels[idx.toNat]?

/-- Lines 30-34: `make([]pixel, numColors)` followed by the stride sampling loop
`for i := 0; i < numColors && i < len(pixels); i++`. Reading `pixels[...]` out of
range is a panic. -/
def initCentroids (pixels : List pixel) (numColors : Nat) : Option (List pixel) :=
  (List.range (min numColors pixels.length)).foldlM
    (fun centroids i =>
      (indexAt pixels (strideIndex i pixels.length numColors)).map
        (fun p => centroids.set i p))
    (List.replicate numColors pixel.zero)

/-- No stride product of the initialisation loop overflows `int`: the largest one,
`(min numColors len - 1) * len`, is below `2^63`. -/
def strideFits (len numColors : Nat) : Prop :=
  (min numColors len - 1) * len < 9223372036854775808

instance (len numColors : Nat) : Decidable (strideFits len numColors) := by
  unfold strideFits; infer_instance

/-- The initial `minDist`, `uint64(1<<63 - 1)`. -/
def maxDist : Nat := 9223372036854775807

/-- Lines 46-52: the index-tracking search over `centroids`; the state is
`(minDist, clusterIdx)` and `i` is the index of the head of the remaining list. -/
def assignSearch (p : pixel) : List pixel → Nat → Nat × Nat → Nat × Nat
  | [], _, st => st
  | c :: cs, i, st =>
    if sqDist p c < st.1 then assignSearch p cs (i + 1) (sqDist p c, i)
    else assignSearch p cs (i + 1) st

/-- Lines 44-52: the cluster index chosen for pixel `p`. -/
def clusterIdx (centroids : List pixel) (p : pixel) : Nat :=
  (assignSearch p centroids 0 (maxDist, 0)).2

/-- Lines 43-54: append every pixel to the cluster of its chosen index;
`clusters[clusterIdx]` out of range is a panic. -/
def assignPixels (centroids : List pixel) :
    List pixel → List (List pixel) → Option (List (List pixel))
  | [], clusters => some clusters
  | p :: ps, clusters =>
    match clusters[clusterIdx centroids p]? with
    | none => none
    | some cl =>
      assignPixels centroids ps (clusters.set (clusterIdx centroids p) (cl ++ [p]))

/-- Lines 61-67: the four `uint64` accumulators over a cluster. -/
def sumChannels : List pixel → Nat × Nat × Nat × Nat → Nat × Nat × Nat × Nat
  | [], acc => acc
  | p :: ps, (r, g, b, a) =>
    sumChannels ps ((r + p.R) % 18446744073709551616, (g + p.G) % 18446744073709551616,
      (b + p.B) % 18446744073709551616, (a + p.A) % 18446744073709551616)

/-- Lines 61-74: the new centroid of a non-empty cluster: each accumulator divided
by the cluster length in `uint64`, converted to `uint32`. -/
def meanPixel (cluster : List pixel) : pixel :=
  let s := sumChannels cluster (0, 0, 0, 0)
  let count := cluster.length
  ⟨s.1 / count % 4294967296, s.2.1 / count % 4294967296,
    s.2.2.1 / count % 4294967296, s.2.2.2 / count % 4294967296⟩

/-- Lines 57-75: the update loop over `clusters`; `i` is the index of the head of
the remaining list. Both slices have length `numColors`, so `centroids[i]` is in
range. -/
def updateCentroids : List (List pixel) → Nat → List pixel → List pixel
  | [], _, centroids => centroids
  | cluster :: rest, i, centroids =>
    if cluster.length = 0 then updateCentroids rest (i + 1) centroids
    else updateCentroids rest (i + 1) (centroids.set i (meanPixel cluster))

/-- Lines 37-75: one round, assignment into `numColors` fresh empty clusters and
then the update. -/
def kmeansRound (pixels : List pixel) (numColors : Nat) (centroids : List pixel) :
    Option (List pixel) :=
  (assignPixels centroids pixels (List.replicate numColors [])).map
    (fun clusters => updateCentroids clusters 0 centroids)

/-- Line 36: the loop `for iter := 0; iter < 5; iter++`, here for `n` rounds. -/
def kmeans (pixels : List pixel) (numColors : Nat) : Nat → List pixel → Option (List pixel)
  | 0, centroids => some centroids
  | n + 1, centroids =>
    (kmeansRound pixels numColors centroids).bind (kmeans pixels numColors n)

/-- Lines 18-76: the centroids after `rounds` rounds; `make` panics on a negative
`numColors`. -/
def centroidsAfter (rounds : Nat) (img : Image) (numColors : Int) : Option (List pixel) :=
  if numColors < 0 then none
  else
    (initCentroids (collectPixels img) numColors.toNat).bind
      (kmeans (collectPixels img) numColors.toNat rounds)

/-- Lines 18-76: the centroids when the five rounds are over. -/
def finalCentroids (img : Image) (numColors : Int) : Option (List pixel) :=
  centroidsAfter 5 img numColors

/-- Lines 86-91: the value-tracking search; the state is `(minDist, nearest)`. -/
def nearestSearch (p : pixel) : List pixel → Nat × pixel → Nat × pixel
  | [], st => st
  | c :: cs, st =>
    if sqDist p c < st.1 then nearestSearch p cs (sqDist p c, c)
    else nearestSearch p cs st

/-- Lines 84-91: the centroid chosen for sample `p`, the zero pixel when none is. -/
def nearest (centroids : List pixel) (p : pixel) : pixel :=
  (nearestSearch p centroids (maxDist, pixel.zero)).2

/-- Lines 92-97: the colour `color.RGBA{uint8(c.R >> 8), ...}`. -/
def narrow (c : pixel) : RGBA :=
  ⟨(c.R >>> 8) % 256, (c.G >>> 8) % 256, (c.B >>> 8) % 256, (c.A >>> 8) % 256⟩

/-- Lines 79-100: the remapping pass over the source grid. -/
def remap (img : Image) (centroids : List pixel) : RGBAImage :=
  forRange img.Bounds.minY img.Bounds.maxY (fun y result =>
    forRange img.Bounds.minX img.Bounds.maxX (fun x result =>
      result.Set x y (narrow (nearest centroids (img.At x y)))) result)
    (NewRGBA img.Bounds)

/-- Function `quantize` of `main.go`. -/
def quantize (img : Image) (numColors : Int) : Option RGBAImage :=
  (finalCentroids img numColors).map (remap img)

/-! ## pixelate -/

/-- Function `pixelate` of `main.go`, applied to an `*image.RGBA` such as the one
`quantize` returns: for that image type `Set(x, y, img.At(x, y))` stores the colour
unchanged. The two outer loops step by `pixelSize`; the two inner loops
`for d := 0; d < pixelSize && v+d < limit; d++` are counted loops up to
`min pixelSize (limit - v)`. -/
def pixelate (fuel : Nat) (img : RGBAImage) (pixelSize : Int) : Option RGBAImage :=
  let width := img.Rect.maxX
  let height := img.Rect.maxY
  forStep height pixelSize (fun y result =>
    forStep width pixelSize (fun x result =>
      some (forRange 0 (min pixelSize (height - y)) (fun dy result =>
        forRange 0 (min pixelSize (width - x)) (fun dx result =>
          result.Set (x + dx) (y + dy) (img.At x y)) result) result))
      fuel 0 result)
    fuel 0 (NewRGBA img.Rect)

/-! ## Sample inputs -/

/-- A pixel with all four channels equal to `v`. -/
def grey (v : Nat) : pixel := ⟨v, v, v, v⟩

/-- A 2x2 source grid at the origin with four different samples. -/
def sample2x2 : Image :=
  ⟨⟨0, 0, 2, 2⟩, fun x y => grey (if y = 0 then (if x = 0 then 0 else 1000) else
    (if x = 0 then 40000 else 65535))⟩

/-- A 4x4 checkerboard `*image.RGBA` at the origin, opaque white and opaque black. -/
def checker4x4 : RGBAImage :=
  ⟨⟨0, 0, 4, 4⟩, fun x y => if (x + y) % 2 = 0 then ⟨255, 255, 255, 255⟩ else ⟨0, 0, 0, 255⟩⟩

/-- A one-cell source grid whose rectangle starts at `(1, 1)`, all channels `65535`. -/
def offsetWhite : Image := ⟨⟨1, 1, 1, 1⟩, fun _ _ => grey 65535⟩

/-- The 4x4 source grid at the origin whose top two rows are `a` and bottom two rows
are `b`. -/
def twoHalves (a b : pixel) : Image := ⟨⟨0, 0, 4, 4⟩, fun _ y => if y < 2 then a else b⟩

/-- The four samples of `sample2x2` as a centroid set, with the black one twice. -/
def sampleCentroids : List pixel := [grey 0, grey 0, grey 1000, grey 40000, grey 65535]

/-- No colour is stored outside the rectangle: `Pix` is the zero colour there, as in
an `*image.RGBA`, whose pixel buffer covers the rectangle only. -/
def RGBAImage.clean (m : RGBAImage) : Prop :=
  ∀ u w, ¬ m.Rect.In u w → m.Pix u w = RGBA.zero

/-- Every channel of the pixel is at most `B`. -/
def pixel.chanLe (B : Nat) (p : pixel) : Prop :=
  p.R ≤ B ∧ p.G ≤ B ∧ p.B ≤ B ∧ p.A ≤ B

instance (B : Nat) (p : pixel) : Decidable (p.chanLe B) := by
  unfold pixel.chanLe; infer_instance

/-- The floor of the channel sums of a cluster over its length, over the unbounded
naturals. -/
def floorMean (cluster : List pixel) : pixel :=
  ⟨(cluster.map pixel.R).sum / cluster.length, (cluster.map pixel.G).sum / cluster.length,
    (cluster.map pixel.B).sum / cluster.length, (cluster.map pixel.A).sum / cluster.length⟩

/-- An `*image.RGBA` with the empty rectangle at the origin. -/
def emptyGrid : RGBAImage := ⟨⟨0, 0, 0, 0⟩, fun _ _ => RGBA.zero⟩

/-- A source grid with the empty rectangle at the origin: it has no pixel. -/
def emptySource : Image := ⟨⟨0, 0, 0, 0⟩, fun _ _ => pixel.zero⟩

/-- The clusters that the assignment step of round `r + 1` builds, from the centroids
present after `r` rounds (lines 37-54 of the iteration `iter = r`). -/
def roundClusters (img : Image) (numColors : Int) (r : Nat) : Option (List (List pixel)) :=
  (centroidsAfter r img numColors).bind (fun centroids =>
    assignPixels centroids (collectPixels img) (List.replicate numColors.toNat []))

/-- Pixel `p` was put in cluster `i` by the assignment step of one of the first `n`
rounds. -/
def everAssigned (img : Image) (numColors : Int) (n i : Nat) (p : pixel) : Prop :=
  ∃ r cls cl, r < n ∧ roundClusters img numColors r = some cls ∧ cls[i]? = some cl ∧ p ∈ cl

/-! ## Theorems -/

theorem wrapInt64_of_inInt64 {x : Int} (h : inInt64 x) : wrapInt64 x = x := by
  unfold inInt64 at h
  unfold wrapInt64
  omega

theorem wrapInt64_modEq (x : Int) : wrapInt64 x ≡ x [ZMOD 18446744073709551616] := by
  unfold wrapInt64 Int.ModEq
  omega

theorem toUint64_congr {x y : Int} (h : x ≡ y [ZMOD 18446744073709551616]) :
    toUint64 x = toUint64 y := by
  unfold toUint64
  rw [h]

/-- For all pixels, `sqDist` is the exact sum of squares reduced modulo `2^64`. -/
theorem sqDist_eq_mod (p1 p2 : pixel) : sqDist p1 p2 = toUint64 (exactSqDist p1 p2) := by
  unfold sqDist exactSqDist
  apply toUint64_congr
  simp only [pow_two]
  refine (wrapInt64_modEq _).trans ?_
  refine Int.ModEq.add ((wrapInt64_modEq _).trans ?_) ((wrapInt64_modEq _).trans ?_)
  · refine Int.ModEq.add ((wrapInt64_modEq _).trans ?_) ((wrapInt64_modEq _).trans ?_)
    · refine Int.ModEq.add ((wrapInt64_modEq _).trans ?_) ((wrapInt64_modEq _).trans ?_)
      · exact Int.ModEq.mul (wrapInt64_modEq _) (wrapInt64_modEq _)
      · exact Int.ModEq.mul (wrapInt64_modEq _) (wrapInt64_modEq _)
    · exact Int.ModEq.mul (wrapInt64_modEq _) (wrapInt64_modEq _)
  · exact Int.ModEq.mul (wrapInt64_modEq _) (wrapInt64_modEq _)

theorem sq_diff_le {a b : Nat} (ha : a ≤ 65535) (hb : b ≤ 65535) :
    0 ≤ ((a : Int) - b) * ((a : Int) - b) ∧ ((a : Int) - b) * ((a : Int) - b) ≤ 4294836225 := by
  constructor
  · exact mul_self_nonneg _
  · have h1 : ((a : Int) - b) ≤ 65535 := by omega
    have h2 : -65535 ≤ ((a : Int) - b) := by omega
    nlinarith

theorem exactSqDist_bounds {p1 p2 : pixel} (h1 : p1.chan16) (h2 : p2.chan16) :
    0 ≤ exactSqDist p1 p2 ∧ exactSqDist p1 p2 ≤ 17179344900 := by
  obtain ⟨r1, g1, b1, a1⟩ := h1
  obtain ⟨r2, g2, b2, a2⟩ := h2
  have hr := sq_diff_le r1 r2
  have hg := sq_diff_le g1 g2
  have hb := sq_diff_le b1 b2
  have ha := sq_diff_le a1 a2
  unfold exactSqDist
  simp only [pow_two]
  omega

theorem sqDist_cast {p1 p2 : pixel} (h1 : p1.chan16) (h2 : p2.chan16) :
    (sqDist p1 p2 : Int) = exactSqDist p1 p2 := by
  have hb := exactSqDist_bounds h1 h2
  rw [sqDist_eq_mod]
  unfold toUint64
  omega

theorem sqDist_lt_maxDist {p1 p2 : pixel} (h1 : p1.chan16) (h2 : p2.chan16) :
    sqDist p1 p2 < maxDist := by
  have hb := exactSqDist_bounds h1 h2
  have hc := sqDist_cast h1 h2
  unfold maxDist
  omega

theorem exactSqDist_eq_zero_iff (p1 p2 : pixel) : exactSqDist p1 p2 = 0 ↔ p1 = p2 := by
  constructor
  · intro h
    unfold exactSqDist at h
    have hr := sq_nonneg ((p1.R : Int) - p2.R)
    have hg := sq_nonneg ((p1.G : Int) - p2.G)
    have hb := sq_nonneg ((p1.B : Int) - p2.B)
    have ha := sq_nonneg ((p1.A : Int) - p2.A)
    have er : ((p1.R : Int) - p2.R) ^ 2 = 0 := by omega
    have eg : ((p1.G : Int) - p2.G) ^ 2 = 0 := by omega
    have eb : ((p1.B : Int) - p2.B) ^ 2 = 0 := by omega
    have ea : ((p1.A : Int) - p2.A) ^ 2 = 0 := by omega
    have er2 := pow_eq_zero_iff (two_ne_zero) |>.mp er
    have eg2 := pow_eq_zero_iff (two_ne_zero) |>.mp eg
    have eb2 := pow_eq_zero_iff (two_ne_zero) |>.mp eb
    have ea2 := pow_eq_zero_iff (two_ne_zero) |>.mp ea
    cases p1
    cases p2
    simp only [pixel.mk.injEq]
    simp only at er2 eg2 eb2 ea2
    omega
  · rintro rfl
    simp [exactSqDist]

theorem sqDist_self (p : pixel) : sqDist p p = 0 := by
  rw [sqDist_eq_mod, (exactSqDist_eq_zero_iff p p).mpr rfl]
  rfl

theorem sqDist_eq_zero_iff_of_chan16 {p1 p2 : pixel} (h1 : p1.chan16) (h2 : p2.chan16) :
    sqDist p1 p2 = 0 ↔ p1 = p2 := by
  rw [← exactSqDist_eq_zero_iff, ← sqDist_cast h1 h2]
  omega

/-! ### Claims on the colour distance -/

/-- C1: for pixels whose channels are all in `0..65535`, `sqDist` equals the exact sum
of the four squared channel differences over the unbounded integers, no `int64`
difference, square or partial sum wraps, and the result is non-negative and at most
`4 * 65535^2`. -/
theorem sqDist_exact_no_wrap (p1 p2 : pixel) (h1 : p1.chan16) (h2 : p2.chan16) :
    (sqDist p1 p2 : Int) = ((p1.R : Int) - p2.R) ^ 2 + ((p1.G : Int) - p2.G) ^ 2
        + ((p1.B : Int) - p2.B) ^ 2 + ((p1.A : Int) - p2.A) ^ 2
      ∧ sqDistNoWrap p1 p2
      ∧ (0 : Int) ≤ sqDist p1 p2
      ∧ sqDist p1 p2 ≤ 4 * 65535 ^ 2 := by
  have hb := exactSqDist_bounds h1 h2
  have hc := sqDist_cast h1 h2
  refine ⟨hc, ?_, by omega, by norm_num; omega⟩
  obtain ⟨r1, g1, b1, a1⟩ := h1
  obtain ⟨r2, g2, b2, a2⟩ := h2
  have hr := sq_diff_le r1 r2
  have hg := sq_diff_le g1 g2
  have hb := sq_diff_le b1 b2
  have ha := sq_diff_le a1 a2
  simp only [sqDistNoWrap, inInt64]
  omega

/-- Witness for C1 at two concrete pixels. -/
theorem sqDist_exact_no_wrap_witness :
    (sqDist ⟨65535, 0, 7, 300⟩ ⟨0, 65535, 9, 300⟩ : Int)
        = ((65535 : Nat) - (0 : Nat) : Int) ^ 2 + (((0 : Nat) : Int) - (65535 : Nat)) ^ 2
          + (((7 : Nat) : Int) - (9 : Nat)) ^ 2 + (((300 : Nat) : Int) - (300 : Nat)) ^ 2
      ∧ sqDistNoWrap ⟨65535, 0, 7, 300⟩ ⟨0, 65535, 9, 300⟩
      ∧ (0 : Int) ≤ sqDist ⟨65535, 0, 7, 300⟩ ⟨0, 65535, 9, 300⟩
      ∧ sqDist ⟨65535, 0, 7, 300⟩ ⟨0, 65535, 9, 300⟩ ≤ 4 * 65535 ^ 2 :=
  sqDist_exact_no_wrap ⟨65535, 0, 7, 300⟩ ⟨0, 65535, 9, 300⟩ (by decide) (by decide)

/-- C2: for samples with channels in `0..65535`, `sqDist a b = 0` exactly when `a` and
`b` agree in all four channels. -/
theorem sqDist_zero_iff_channels_eq (a b : pixel) (ha : a.chan16) (hb : b.chan16) :
    sqDist a b = 0 ↔ (a.R = b.R ∧ a.G = b.G ∧ a.B = b.B ∧ a.A = b.A) := by
  rw [sqDist_eq_zero_iff_of_chan16 ha hb]
  cases a
  cases b
  simp

/-- Witness for C2 at two concrete pixels. -/
theorem sqDist_zero_iff_channels_eq_witness :
    sqDist ⟨1, 2, 3, 4⟩ ⟨1, 2, 3, 5⟩ = 0 ↔
      ((1 : Nat) = 1 ∧ (2 : Nat) = 2 ∧ (3 : Nat) = 3 ∧ (4 : Nat) = 5) :=
  sqDist_zero_iff_channels_eq ⟨1, 2, 3, 4⟩ ⟨1, 2, 3, 5⟩ (by decide) (by decide)

/-- C3: `sqDist` is symmetric for every pair of pixels, wrapped arithmetic included. -/
theorem sqDist_symm (a b : pixel) : sqDist a b = sqDist b a := by
  rw [sqDist_eq_mod, sqDist_eq_mod]
  congr 1
  unfold exactSqDist
  ring

/-! ### Centroid initialisation -/

theorem stride_index_lt {i n k : Nat} (hk : i < k) (hn : i < n) : i * n / k < n := by
  apply Nat.div_lt_of_lt_mul
  exact Nat.mul_lt_mul_of_pos_right hk (by omega)

/-- The wrapped product is the `int64` wrap of the exact product. -/
theorem wrapProduct_eq_wrapInt64 (x : Nat) : wrapProduct x = wrapInt64 (x : Int) := by
  unfold wrapProduct wrapInt64
  split <;> omega

theorem wrapProduct_of_fit {x : Nat} (h : x < 9223372036854775808) :
    wrapProduct x = (x : Int) := by
  unfold wrapProduct
  rw [Nat.mod_eq_of_lt (by omega), if_pos h]

theorem strideIndex_of_fit {i n k : Nat} (h : i * n < 9223372036854775808) :
    strideIndex i n k = ((i * n / k : Nat) : Int) := by
  unfold strideIndex
  rw [wrapProduct_of_fit h, ← Int.ofNat_tdiv]

theorem indexAt_cast (pixels : List pixel) (j : Nat) :
    indexAt pixels ((j : Nat) : Int) = pixels[j]? := by
  unfold indexAt
  rw [if_neg (by omega), Int.toNat_ofNat]

theorem indexAt_mem {pixels : List pixel} {idx : Int} {p : pixel}
    (h : indexAt pixels idx = some p) : p ∈ pixels := by
  unfold indexAt at h
  by_cases hneg : idx < 0
  · rw [if_pos hneg] at h
    exact absurd h (by simp)
  · rw [if_neg hneg] at h
    exact List.getElem?_mem h

theorem strideFits_lt {n k i : Nat} (hfit : strideFits n k) (hi : i < min k n) :
    i * n < 9223372036854775808 := by
  unfold strideFits at hfit
  exact lt_of_le_of_lt (Nat.mul_le_mul_right n (by omega : i ≤ min k n - 1)) hfit

theorem initFold_single (pixels cs : List pixel) (k m : Nat) (r : List pixel)
    (hf : (indexAt pixels (strideIndex m pixels.length k)).map
          (fun p => cs.set m p) = some r) :
    List.foldlM (fun centroids i =>
          (indexAt pixels (strideIndex i pixels.length k)).map
            (fun p => centroids.set i p)) cs [m] = some r := by
  rw [List.foldlM_cons]
  simp only [hf]
  rfl

theorem initCentroids_loop (pixels : List pixel) (k m : Nat)
    (hm : m ≤ min k pixels.length)
    (hfit : ∀ j, j < m → j * pixels.length < 9223372036854775808) :
    ∃ cs, (List.range m).foldlM
        (fun centroids i =>
          (indexAt pixels (strideIndex i pixels.length k)).map
            (fun p => centroids.set i p))
        (List.replicate k pixel.zero) = some cs
      ∧ cs.length = k
      ∧ (∀ i, i < m → cs[i]? = pixels[i * pixels.length / k]?)
      ∧ (∀ i, m ≤ i → i < k → cs[i]? = some pixel.zero) := by
  induction m with
  | zero =>
    refine ⟨_, rfl, by simp, by simp, ?_⟩
    intro i _ hi
    simp [List.getElem?_replicate, hi]
  | succ m ih =>
    obtain ⟨cs, hcs, hlen, hlo, hhi⟩ := ih (by omega) (fun j hj => hfit j (by omega))
    have hidx : m * pixels.length / k < pixels.length :=
      stride_index_lt (by omega) (by omega)
    obtain ⟨p, hp⟩ : ∃ p, pixels[m * pixels.length / k]? = some p :=
      ⟨_, List.getElem?_eq_getElem hidx⟩
    have hf : (indexAt pixels (strideIndex m pixels.length k)).map
        (fun q => cs.set m q) = some (cs.set m p) := by
      rw [strideIndex_of_fit (hfit m (by omega)), indexAt_cast, hp]
      rfl
    refine ⟨cs.set m p, ?_, by simp [hlen], ?_, ?_⟩
    · rw [List.range_succ, List.foldlM_append, hcs]
      exact initFold_single pixels cs k m _ hf
    · intro i hi
      by_cases him : i = m
      · subst him
        rw [List.getElem?_set_self (by omega), hp]
      · rw [List.getElem?_set_ne (fun h => him h.symm)]
        exact hlo i (by omega)
    · intro i hi hik
      rw [List.getElem?_set_ne (by omega)]
      exact hhi i (by omega) hik

/-- When no stride product overflows, the initialisation returns the stride samples
followed by zero pixels. -/
theorem initCentroids_eq (pixels : List pixel) (k : Nat)
    (hfit : strideFits pixels.length k) :
    ∃ cs, initCentroids pixels k = some cs
      ∧ cs.length = k
      ∧ (∀ i, i < min k pixels.length → cs[i]? = pixels[i * pixels.length / k]?)
      ∧ (∀ i, min k pixels.length ≤ i → i < k → cs[i]? = some pixel.zero) :=
  initCentroids_loop pixels k (min k pixels.length) (le_refl _)
    (fun _ hj => strideFits_lt hfit hj)

theorem initLoop_sound (pixels : List pixel) (k : Nat) (l : List Nat)
    (st cs : List pixel)
    (hst : st.length = k ∧ ∀ c ∈ st, c ∈ pixels ∨ c = pixel.zero)
    (h : l.foldlM
        (fun centroids i =>
          (indexAt pixels (strideIndex i pixels.length k)).map
            (fun p => centroids.set i p)) st = some cs) :
    cs.length = k ∧ ∀ c ∈ cs, c ∈ pixels ∨ c = pixel.zero := by
  induction l generalizing st with
  | nil =>
    simp only [List.foldlM_nil] at h
    rw [← Option.some.inj h]
    exact hst
  | cons i l ih =>
    rw [List.foldlM_cons] at h
    obtain ⟨st2, h1, h2⟩ := Option.bind_eq_some.mp h
    obtain ⟨p, hp, hset⟩ := Option.map_eq_some'.mp h1
    refine ih st2 ?_ h2
    rw [← hset]
    refine ⟨by rw [List.length_set]; exact hst.1, ?_⟩
    intro c hc
    rcases List.mem_or_eq_of_mem_set hc with hm | hm
    · exact hst.2 c hm
    · rw [hm]
      exact Or.inl (indexAt_mem hp)

/-- Whatever the initialisation returns has `k` entries, each a pixel of the list or
the zero pixel. -/
theorem initCentroids_sound (pixels : List pixel) (k : Nat) (cs : List pixel)
    (h : initCentroids pixels k = some cs) :
    cs.length = k ∧ ∀ c ∈ cs, c ∈ pixels ∨ c = pixel.zero := by
  refine initLoop_sound pixels k _ (List.replicate k pixel.zero) cs ⟨by simp, ?_⟩ h
  intro c hc
  exact Or.inr (List.eq_of_mem_replicate hc)

/-- The initialisation when no stride product overflows: `k` entries; entry `i` for
`i < min k n` is `pixels[(i * n) / k]`, an index that is in range; every entry with
index `i ≥ n` is the all-zero pixel; and for the empty pixel list all `k` entries are
all-zero. -/
theorem initCentroids_spec (pixels : List pixel) (k : Nat)
    (hfit : strideFits pixels.length k) :
    ∃ cs, initCentroids pixels k = some cs
      ∧ cs.length = k
      ∧ (∀ i, i < min k pixels.length →
          i * pixels.length / k < pixels.length ∧
          cs[i]? = pixels[i * pixels.length / k]?)
      ∧ (∀ i, pixels.length ≤ i → i < k → cs[i]? = some pixel.zero)
      ∧ (pixels = [] → cs = List.replicate k pixel.zero) := by
  obtain ⟨cs, hcs, hlen, hlo, hhi⟩ := initCentroids_eq pixels k hfit
  refine ⟨cs, hcs, hlen, ?_, ?_, ?_⟩
  · intro i hi
    exact ⟨stride_index_lt (by omega) (by omega), hlo i hi⟩
  · intro i hi hik
    exact hhi i (by omega) hik
  · intro hnil
    subst hnil
    apply List.ext_getElem?
    intro i
    by_cases hik : i < k
    · rw [hhi i (by simp) hik]
      simp [List.getElem?_replicate, hik]
    · rw [List.getElem?_eq_none (by omega), List.getElem?_eq_none (by simp; omega)]

/-- The initialisation of a non-empty pixel list with `k ≥ 1` when no stride product
overflows: it returns `k` entries, every exact index `(i * n) / k` with `i < k` is
below `n`, and when `k ≤ n` every entry is an element of the pixel list. -/
theorem initCentroids_mem (pixels : List pixel) (k : Nat) (hne : pixels ≠ [])
    (hk : 1 ≤ k) (hfit : strideFits pixels.length k) :
    ∃ cs, initCentroids pixels k = some cs
      ∧ cs.length = k
      ∧ (∀ i, i < k → i * pixels.length / k < pixels.length)
      ∧ (k ≤ pixels.length → ∀ c ∈ cs, c ∈ pixels) := by
  obtain ⟨cs, hcs, hlen, hlo, _⟩ := initCentroids_eq pixels k hfit
  have _ := hk
  have hpos : 0 < pixels.length := List.length_pos.mpr hne
  refine ⟨cs, hcs, hlen, ?_, ?_⟩
  · intro i hi
    apply Nat.div_lt_of_lt_mul
    exact Nat.mul_lt_mul_of_pos_right hi hpos
  · intro hkn c hc
    obtain ⟨i, hi, rfl⟩ := List.mem_iff_getElem.mp hc
    have h1 := hlo i (by omega)
    have hidx : i * pixels.length / k < pixels.length :=
      stride_index_lt (by omega) (by omega)
    rw [List.getElem?_eq_getElem hi, List.getElem?_eq_getElem hidx] at h1
    rw [Option.some.inj h1]
    exact List.getElem_mem _

/-- The stride sampling on a three-pixel list with two centroids. -/
theorem initCentroids_mem_witness :
    ∃ cs, initCentroids [grey 1, grey 2, grey 3] 2 = some cs
      ∧ cs.length = 2
      ∧ (∀ i, i < 2 → i * [grey 1, grey 2, grey 3].length / 2
          < [grey 1, grey 2, grey 3].length)
      ∧ (2 ≤ [grey 1, grey 2, grey 3].length → ∀ c ∈ cs, c ∈ [grey 1, grey 2, grey 3]) :=
  initCentroids_mem [grey 1, grey 2, grey 3] 2 (by simp) (by decide) (by decide)

/-! ### Overflow of the stride product -/

theorem initFold_none (pixels cs : List pixel) (k i : Nat)
    (hneg : strideIndex i pixels.length k < 0) :
    List.foldlM (fun centroids i =>
          (indexAt pixels (strideIndex i pixels.length k)).map
            (fun p => centroids.set i p)) cs [i] = none := by
  have hf : (indexAt pixels (strideIndex i pixels.length k)).map
      (fun p => cs.set i p) = none := by
    unfold indexAt
    rw [if_pos hneg]
    rfl
  rw [List.foldlM_cons]
  simp only [hf]
  rfl

/-- When the stride products below `i` fit and the one at `i` wraps to a negative
index, the read `pixels[...]` of iteration `i` panics. -/
theorem initCentroids_overflow (pixels : List pixel) (k i : Nat)
    (hi : i < min k pixels.length)
    (hpre : ∀ j, j < i → j * pixels.length < 9223372036854775808)
    (hneg : strideIndex i pixels.length k < 0) :
    initCentroids pixels k = none := by
  have hstep : ∀ m, i + 1 ≤ m → (List.range m).foldlM
      (fun centroids i =>
        (indexAt pixels (strideIndex i pixels.length k)).map
          (fun p => centroids.set i p))
      (List.replicate k pixel.zero) = none := by
    intro m hm
    induction m, hm using Nat.le_induction with
    | base =>
      obtain ⟨cs, hcs, _, _, _⟩ := initCentroids_loop pixels k i (by omega) hpre
      rw [List.range_succ, List.foldlM_append, hcs]
      exact initFold_none pixels cs k i hneg
    | succ m _ ih =>
      rw [List.range_succ, List.foldlM_append, ih]
      rfl
  exact hstep (min k pixels.length) (by omega)

/-- C4, the failing input: with `2^32` pixels and `numColors = 2^32` the stride product
of iteration `i = 2^31` is `2^63`, which wraps to `-2^63`; the index is `-2^31` and the
initialisation panics instead of returning a centroid set. -/
theorem initCentroids_overflow_panic :
    strideIndex 2147483648 4294967296 4294967296 = -2147483648
      ∧ initCentroids (List.replicate 4294967296 (grey 1)) 4294967296 = none := by
  refine ⟨by decide, ?_⟩
  have hlen : (List.replicate 4294967296 (grey 1)).length = 4294967296 :=
    List.length_replicate _ _
  apply initCentroids_overflow _ 4294967296 2147483648
  · rw [hlen]
    decide
  · rw [hlen]
    intro j hj
    omega
  · rw [hlen]
    decide

/-- C5, the failing input: a non-empty list of `2^32` pixels and `numColors = 2^31 + 1`,
so that `1 ≤ k ≤ len(pixels)`: the index computed for `i = 2^31 < k` is negative, out
of range, and the initialisation panics. -/
theorem initCentroids_overflow_out_of_range :
    2147483649 ≤ (List.replicate 4294967296 (grey 1)).length
      ∧ strideIndex 2147483648 4294967296 2147483649 < 0
      ∧ initCentroids (List.replicate 4294967296 (grey 1)) 2147483649 = none := by
  have hlen : (List.replicate 4294967296 (grey 1)).length = 4294967296 :=
    List.length_replicate _ _
  refine ⟨by rw [hlen]; decide, by decide, ?_⟩
  apply initCentroids_overflow _ 2147483649 2147483648
  · rw [hlen]
    decide
  · rw [hlen]
    intro j hj
    omega
  · rw [hlen]
    decide

/-! ### Loops and image cells -/

theorem forRange_inv {σ : Type} (lo hi : Int) (body : Int → σ → σ) (init : σ)
    (Inv : Nat → σ → Prop) (h0 : Inv 0 init)
    (hstep : ∀ (i : Nat) (st : σ), i < (hi - lo).toNat → Inv i st →
      Inv (i + 1) (body (lo + (i : Int)) st)) :
    Inv (hi - lo).toNat (forRange lo hi body init) := by
  unfold forRange
  generalize (hi - lo).toNat = n at hstep ⊢
  induction n with
  | zero => simpa using h0
  | succ n ih =>
    rw [List.range_succ, List.foldl_append]
    simp only [List.foldl_cons, List.foldl_nil]
    exact hstep n _ (by omega) (ih (fun i st hi h => hstep i st (by omega) h))

theorem RGBAImage.Set_Rect (m : RGBAImage) (x y : Int) (c : RGBA) :
    (m.Set x y c).Rect = m.Rect := by
  unfold RGBAImage.Set
  split <;> rfl

theorem RGBAImage.Set_At (m : RGBAImage) (x y : Int) (c : RGBA) (u w : Int) :
    (m.Set x y c).At u w = if u = x ∧ w = y ∧ m.Rect.In u w then c else m.At u w := by
  unfold RGBAImage.Set RGBAImage.At
  by_cases hxy : m.Rect.In x y
  · by_cases huw : u = x ∧ w = y
    · obtain ⟨rfl, rfl⟩ := huw
      simp [hxy]
    · simp only [hxy, if_true]
      have h2 : ¬ (u = x ∧ w = y ∧ m.Rect.In u w) := fun h => huw ⟨h.1, h.2.1⟩
      simp only [huw, h2, if_false]
  · have h2 : ¬ (u = x ∧ w = y ∧ m.Rect.In u w) := by
      rintro ⟨rfl, rfl, h⟩
      exact hxy h
    simp only [hxy, h2, if_false]

theorem NewRGBA_At (r : Rectangle) (u w : Int) : (NewRGBA r).At u w = RGBA.zero := by
  unfold NewRGBA RGBAImage.At
  simp

/-- One row of stores: cells `offx + lo .. offx + hi - 1` of row `y` receive their
value, every other cell is as before. -/
theorem fillRow_spec (m : RGBAImage) (lo hi offx y : Int) (val : Int → RGBA) :
    (forRange lo hi (fun v res => res.Set (offx + v) y (val v)) m).Rect = m.Rect
      ∧ ∀ u w, (forRange lo hi (fun v res => res.Set (offx + v) y (val v)) m).At u w
          = if w = y ∧ offx + lo ≤ u ∧ u < offx + hi ∧ m.Rect.In u w
            then val (u - offx) else m.At u w := by
  have key := forRange_inv lo hi (fun v res => res.Set (offx + v) y (val v)) m
    (fun i st => st.Rect = m.Rect ∧ ∀ u w, st.At u w
        = if w = y ∧ offx + lo ≤ u ∧ u < offx + lo + (i : Int) ∧ m.Rect.In u w
          then val (u - offx) else m.At u w)
    (by
      refine ⟨rfl, ?_⟩
      intro u w
      rw [if_neg]
      omega)
    (by
      rintro i st hi ⟨hr, hat⟩
      refine ⟨by rw [RGBAImage.Set_Rect, hr], ?_⟩
      intro u w
      rw [RGBAImage.Set_At, hat, hr]
      by_cases hin : m.Rect.In u w
      · by_cases hw : w = y
        · by_cases hu : u = offx + (lo + (i : Int))
          · rw [if_pos ⟨hu, hw, hin⟩, if_pos ⟨hw, by omega, by omega, hin⟩]
            congr 1
            omega
          · rw [if_neg (fun h => hu h.1)]
            by_cases hlt : offx + lo ≤ u ∧ u < offx + lo + (i : Int)
            · rw [if_pos ⟨hw, hlt.1, hlt.2, hin⟩, if_pos ⟨hw, hlt.1, by omega, hin⟩]
            · rw [if_neg (fun h => hlt ⟨h.2.1, h.2.2.1⟩),
                if_neg (fun h => hlt ⟨h.2.1, by omega⟩)]
        · rw [if_neg (fun h => hw h.2.1), if_neg (fun h => hw h.1),
            if_neg (fun h => hw h.1)]
      · rw [if_neg (fun h => hin h.2.2), if_neg (fun h => hin h.2.2.2),
          if_neg (fun h => hin h.2.2.2)])
  refine ⟨key.1, ?_⟩
  intro u w
  rw [key.2]
  by_cases h : w = y ∧ offx + lo ≤ u ∧ u < offx + hi ∧ m.Rect.In u w
  · rw [if_pos h, if_pos ⟨h.1, h.2.1, by omega, h.2.2.2⟩]
  · rw [if_neg h, if_neg]
    rintro ⟨h1, h2, h3, h4⟩
    exact h ⟨h1, h2, by omega, h4⟩

/-- A rectangle of stores: the cells of columns `offx + xlo .. offx + xhi - 1` and rows
`offy + ylo .. offy + yhi - 1` receive their value, every other cell is as before. -/
theorem fillRect_spec (m : RGBAImage) (xlo xhi ylo yhi offx offy : Int)
    (val : Int → Int → RGBA) :
    (forRange ylo yhi (fun dy res =>
        forRange xlo xhi (fun dx res => res.Set (offx + dx) (offy + dy) (val dx dy)) res)
        m).Rect = m.Rect
      ∧ ∀ u w, (forRange ylo yhi (fun dy res =>
          forRange xlo xhi (fun dx res => res.Set (offx + dx) (offy + dy) (val dx dy)) res)
          m).At u w
          = if offy + ylo ≤ w ∧ w < offy + yhi ∧ offx + xlo ≤ u ∧ u < offx + xhi
              ∧ m.Rect.In u w
            then val (u - offx) (w - offy) else m.At u w := by
  have key := forRange_inv ylo yhi (fun dy res =>
      forRange xlo xhi (fun dx res => res.Set (offx + dx) (offy + dy) (val dx dy)) res) m
    (fun i st => st.Rect = m.Rect ∧ ∀ u w, st.At u w
        = if offy + ylo ≤ w ∧ w < offy + ylo + (i : Int) ∧ offx + xlo ≤ u ∧ u < offx + xhi
            ∧ m.Rect.In u w
          then val (u - offx) (w - offy) else m.At u w)
    (by
      refine ⟨rfl, ?_⟩
      intro u w
      rw [if_neg]
      omega)
    (by
      rintro i st hi ⟨hr, hat⟩
      have hrow := fillRow_spec st xlo xhi offx (offy + (ylo + (i : Int)))
        (fun dx => val dx (ylo + (i : Int)))
      refine ⟨by rw [hrow.1, hr], ?_⟩
      intro u w
      rw [hrow.2, hat, hr]
      by_cases hin : m.Rect.In u w
      · by_cases hx : offx + xlo ≤ u ∧ u < offx + xhi
        · by_cases hw : w = offy + (ylo + (i : Int))
          · rw [if_pos ⟨hw, hx.1, hx.2, hin⟩, if_pos ⟨by omega, by omega, hx.1, hx.2, hin⟩]
            congr 1
            omega
          · rw [if_neg (fun h => hw h.1)]
            by_cases hlt : offy + ylo ≤ w ∧ w < offy + ylo + (i : Int)
            · rw [if_pos ⟨hlt.1, hlt.2, hx.1, hx.2, hin⟩,
                if_pos ⟨hlt.1, by omega, hx.1, hx.2, hin⟩]
            · rw [if_neg (fun h => hlt ⟨h.1, h.2.1⟩), if_neg (fun h => hlt ⟨h.1, by omega⟩)]
        · rw [if_neg (fun h => hx ⟨h.2.1, h.2.2.1⟩),
            if_neg (fun h => hx ⟨h.2.2.1, h.2.2.2.1⟩),
            if_neg (fun h => hx ⟨h.2.2.1, h.2.2.2.1⟩)]
      · rw [if_neg (fun h => hin h.2.2.2), if_neg (fun h => hin h.2.2.2.2),
          if_neg (fun h => hin h.2.2.2.2)])
  refine ⟨key.1, ?_⟩
  intro u w
  rw [key.2]
  by_cases h : offy + ylo ≤ w ∧ w < offy + yhi ∧ offx + xlo ≤ u ∧ u < offx + xhi
      ∧ m.Rect.In u w
  · rw [if_pos h, if_pos ⟨h.1, by omega, h.2.2⟩]
  · rw [if_neg h, if_neg]
    rintro ⟨h1, h2, h3⟩
    exact h ⟨h1, by omega, h3⟩

/-! ### Nearest-centroid searches -/

theorem firstNearest_head {p a : pixel} {cs : List pixel}
    (h : ∀ c ∈ cs, sqDist p a ≤ sqDist p c) : firstNearest (a :: cs) p 0 a := by
  refine ⟨by simp, ?_, ?_⟩
  · intro i c2 hi
    cases i with
    | zero =>
      simp only [List.getElem?_cons_zero, Option.some.injEq] at hi
      rw [hi]
    | succ i =>
      simp only [List.getElem?_cons_succ] at hi
      exact h c2 (List.getElem?_mem hi)
  · intro i c2 hi
    omega

theorem firstNearest_tail {p a c : pixel} {cs : List pixel} {j : Nat}
    (h : firstNearest cs p j c) (hlt : sqDist p c < sqDist p a) :
    firstNearest (a :: cs) p (j + 1) c := by
  obtain ⟨h1, h2, h3⟩ := h
  refine ⟨by simpa using h1, ?_, ?_⟩
  · intro i c2 hi
    cases i with
    | zero =>
      simp only [List.getElem?_cons_zero, Option.some.injEq] at hi
      rw [← hi]
      omega
    | succ i =>
      simp only [List.getElem?_cons_succ] at hi
      exact h2 i c2 hi
  · intro i c2 hij hi
    cases i with
    | zero =>
      simp only [List.getElem?_cons_zero, Option.some.injEq] at hi
      rw [← hi]
      exact hlt
    | succ i =>
      simp only [List.getElem?_cons_succ] at hi
      exact h3 i c2 (by omega) hi

/-- The first-nearest index and centroid are unique. -/
theorem firstNearest_unique {cs : List pixel} {p c1 c2 : pixel} {j1 j2 : Nat}
    (h1 : firstNearest cs p j1 c1) (h2 : firstNearest cs p j2 c2) : j1 = j2 ∧ c1 = c2 := by
  have hj : j1 = j2 := by
    rcases Nat.lt_trichotomy j1 j2 with hlt | heq | hgt
    · have a := h2.2.2 j1 c1 hlt h1.1
      have b := h1.2.1 j2 c2 h2.1
      omega
    · exact heq
    · have a := h1.2.2 j2 c2 hgt h2.1
      have b := h2.2.1 j1 c1 h1.1
      omega
  subst hj
  have := h1.1.symm.trans h2.1
  exact ⟨rfl, Option.some.inj this⟩

theorem nearestSearch_spec (p : pixel) (cs : List pixel) (st : Nat × pixel) :
    (nearestSearch p cs st = st ∧ ∀ c ∈ cs, st.1 ≤ sqDist p c) ∨
    (∃ j c, firstNearest cs p j c ∧ sqDist p c < st.1
      ∧ nearestSearch p cs st = (sqDist p c, c)) := by
  induction cs generalizing st with
  | nil => exact Or.inl ⟨rfl, by simp⟩
  | cons a cs ih =>
    unfold nearestSearch
    by_cases hlt : sqDist p a < st.1
    · rw [if_pos hlt]
      rcases ih (sqDist p a, a) with ⟨heq, hall⟩ | ⟨j, c, hfn, hc, heq⟩
      · exact Or.inr ⟨0, a, firstNearest_head hall, hlt, heq⟩
      · exact Or.inr ⟨j + 1, c, firstNearest_tail hfn hc, by simp only at hc; omega, heq⟩
    · rw [if_neg hlt]
      rcases ih st with ⟨heq, hall⟩ | ⟨j, c, hfn, hc, heq⟩
      · refine Or.inl ⟨heq, ?_⟩
        intro c hc
        rcases List.mem_cons.mp hc with rfl | hc
        · omega
        · exact hall c hc
      · exact Or.inr ⟨j + 1, c, firstNearest_tail hfn (by omega), hc, heq⟩

theorem assignSearch_spec (p : pixel) (cs : List pixel) (i0 : Nat) (st : Nat × Nat) :
    (assignSearch p cs i0 st = st ∧ ∀ c ∈ cs, st.1 ≤ sqDist p c) ∨
    (∃ j c, firstNearest cs p j c ∧ sqDist p c < st.1
      ∧ assignSearch p cs i0 st = (sqDist p c, i0 + j)) := by
  induction cs generalizing st i0 with
  | nil => exact Or.inl ⟨rfl, by simp⟩
  | cons a cs ih =>
    unfold assignSearch
    by_cases hlt : sqDist p a < st.1
    · rw [if_pos hlt]
      rcases ih (i0 + 1) (sqDist p a, i0) with ⟨heq, hall⟩ | ⟨j, c, hfn, hc, heq⟩
      · exact Or.inr ⟨0, a, firstNearest_head hall, hlt, heq⟩
      · refine Or.inr ⟨j + 1, c, firstNearest_tail hfn hc, by simp only at hc; omega, ?_⟩
        rw [heq]
        congr 1
        omega
    · rw [if_neg hlt]
      rcases ih (i0 + 1) st with ⟨heq, hall⟩ | ⟨j, c, hfn, hc, heq⟩
      · refine Or.inl ⟨heq, ?_⟩
        intro c hc
        rcases List.mem_cons.mp hc with rfl | hc
        · omega
        · exact hall c hc
      · refine Or.inr ⟨j + 1, c, firstNearest_tail hfn (by omega), hc, ?_⟩
        rw [heq]
        congr 1
        omega

/-- With 16-bit channels and at least one centroid, the value-tracking search returns
the first centroid at minimal distance. -/
theorem nearest_firstNearest {cs : List pixel} {p : pixel} (hne : cs ≠ [])
    (hcs : ∀ c ∈ cs, c.chan16) (hp : p.chan16) :
    ∃ j, firstNearest cs p j (nearest cs p) := by
  unfold nearest
  rcases nearestSearch_spec p cs (maxDist, pixel.zero) with ⟨_, hall⟩ | ⟨j, c, hfn, _, heq⟩
  · exfalso
    obtain ⟨a, as, rfl⟩ := List.exists_cons_of_ne_nil hne
    have h1 := hall a (List.mem_cons_self _ _)
    have h2 := sqDist_lt_maxDist hp (hcs a (List.mem_cons_self _ _))
    simp only at h1
    omega
  · rw [heq]
    exact ⟨j, hfn⟩

/-- With 16-bit channels and at least one centroid, the index-tracking search returns
the index of the first centroid at minimal distance. -/
theorem clusterIdx_firstNearest {cs : List pixel} {p : pixel} (hne : cs ≠ [])
    (hcs : ∀ c ∈ cs, c.chan16) (hp : p.chan16) :
    ∃ c, firstNearest cs p (clusterIdx cs p) c := by
  unfold clusterIdx
  rcases assignSearch_spec p cs 0 (maxDist, 0) with ⟨_, hall⟩ | ⟨j, c, hfn, _, heq⟩
  · exfalso
    obtain ⟨a, as, rfl⟩ := List.exists_cons_of_ne_nil hne
    have h1 := hall a (List.mem_cons_self _ _)
    have h2 := sqDist_lt_maxDist hp (hcs a (List.mem_cons_self _ _))
    simp only at h1
    omega
  · rw [heq]
    simp only [zero_add]
    exact ⟨c, hfn⟩

/-- The chosen cluster index is in range as soon as there is one centroid. -/
theorem clusterIdx_lt {cs : List pixel} (p : pixel) (hne : cs ≠ []) :
    clusterIdx cs p < cs.length := by
  unfold clusterIdx
  rcases assignSearch_spec p cs 0 (maxDist, 0) with ⟨heq, _⟩ | ⟨j, c, hfn, _, heq⟩
  · rw [heq]
    exact List.length_pos.mpr hne
  · rw [heq]
    simp only [zero_add]
    exact (List.getElem?_eq_some.mp hfn.1).1

theorem narrow_of_chan16 {c : pixel} (h : c.chan16) :
    narrow c = ⟨c.R >>> 8, c.G >>> 8, c.B >>> 8, c.A >>> 8⟩ := by
  obtain ⟨hr, hg, hb, ha⟩ := h
  unfold narrow
  simp only [Nat.shiftRight_eq_div_pow, RGBA.mk.injEq]
  norm_num
  omega

/-! ### The remapping pass -/

theorem remap_cells (img : Image) (cs : List pixel) :
    (remap img cs).Rect = img.Bounds
      ∧ ∀ x y, (remap img cs).At x y
          = if img.Bounds.In x y then narrow (nearest cs (img.At x y)) else RGBA.zero := by
  have key := fillRect_spec (NewRGBA img.Bounds) img.Bounds.minX img.Bounds.maxX
    img.Bounds.minY img.Bounds.maxY 0 0 (fun x y => narrow (nearest cs (img.At x y)))
  simp only [zero_add, sub_zero] at key
  refine ⟨key.1, ?_⟩
  intro x y
  unfold remap
  rw [key.2, NewRGBA_At]
  by_cases h : img.Bounds.In x y
  · have h2 := h
    unfold Rectangle.In at h2
    rw [if_pos h, if_pos ⟨h2.2.2.1, h2.2.2.2, h2.1, h2.2.1, h⟩]
  · rw [if_neg h, if_neg (fun hh => h hh.2.2.2.2)]

/-- C6: with 16-bit channels and at least one centroid, the remapped grid has the
rectangle (width and height) of the source, and each cell `(x, y)` of it holds
`(R >> 8, G >> 8, B >> 8, A >> 8)` of the centroid `c` at the smallest index `j` that
minimises `sqDist (source (x, y)) c`. -/
theorem remap_spec (img : Image) (cs : List pixel) (hk : 1 ≤ cs.length)
    (hcs : ∀ c ∈ cs, c.chan16)
    (himg : ∀ x y, img.Bounds.In x y → (img.At x y).chan16) :
    (remap img cs).Rect = img.Bounds
      ∧ (remap img cs).Rect.dx = img.Bounds.dx ∧ (remap img cs).Rect.dy = img.Bounds.dy
      ∧ ∀ x y, img.Bounds.In x y →
          ∃ j c, firstNearest cs (img.At x y) j c
            ∧ (remap img cs).At x y = ⟨c.R >>> 8, c.G >>> 8, c.B >>> 8, c.A >>> 8⟩ := by
  have hne : cs ≠ [] := by
    intro h
    rw [h] at hk
    simp at hk
  obtain ⟨hrect, hat⟩ := remap_cells img cs
  refine ⟨hrect, by rw [hrect], by rw [hrect], ?_⟩
  intro x y hin
  obtain ⟨j, hj⟩ := nearest_firstNearest hne hcs (himg x y hin)
  refine ⟨j, _, hj, ?_⟩
  rw [hat, if_pos hin]
  exact narrow_of_chan16 (hcs _ (List.getElem?_mem hj.1))

/-! ### Pixelation -/

/-- The block corner of a coordinate: `x` is a multiple of `s` and `u` lies in
`[x, x + s)`, so `s * (u / s) = x`. -/
theorem block_origin {s x u : Int} (hs : 1 ≤ s) (hx : x % s = 0) (h1 : x ≤ u)
    (h2 : u < x + s) : s * (u / s) = x := by
  have hu := Int.ediv_add_emod u s
  have hxd := Int.ediv_add_emod x s
  rw [hx, add_zero] at hxd
  have hr0 := Int.emod_nonneg u (by omega : s ≠ 0)
  have hr1 := Int.emod_lt_of_pos u (by omega : 0 < s)
  have hq : u / s = x / s := by
    rcases lt_trichotomy (u / s) (x / s) with hlt | heq | hgt
    · exfalso
      have : s * (u / s) + s ≤ s * (x / s) := by nlinarith
      omega
    · exact heq
    · exfalso
      have : s * (x / s) + s ≤ s * (u / s) := by nlinarith
      omega
  rw [hq, hxd]

theorem forStep_inv {σ : Type} (hi step : Int) (body : Int → σ → Option σ)
    (hstep : 1 ≤ step) (Inv : Int → σ → Prop)
    (hbody : ∀ v st, v < hi → Inv v st → ∃ st2, body v st = some st2 ∧ Inv (v + step) st2) :
    ∀ (fuel : Nat) (v : Int) (st : σ), (hi - v).toNat ≤ fuel → Inv v st →
      ∃ v2 st2, forStep hi step body fuel v st = some st2 ∧ hi ≤ v2 ∧ Inv v2 st2 := by
  intro fuel
  induction fuel with
  | zero =>
    intro v st hf hinv
    refine ⟨v, st, ?_, by omega, hinv⟩
    unfold forStep
    rw [if_neg (by omega)]
  | succ fuel ih =>
    intro v st hf hinv
    by_cases hv : v < hi
    · obtain ⟨st2, hb, hinv2⟩ := hbody v st hv hinv
      obtain ⟨v3, st3, h3, hle, hinv3⟩ := ih (v + step) st2 (by omega) hinv2
      refine ⟨v3, st3, ?_, hle, hinv3⟩
      unfold forStep
      rw [if_pos hv]
      simp only [hb, Option.some_bind]
      exact h3
    · refine ⟨v, st, ?_, by omega, hinv⟩
      unfold forStep
      rw [if_neg hv]

/-- The inner `x` loop of `pixelate` for the block row starting at `y`. -/
theorem pixelate_row (img : RGBAImage) (s : Int) (hs : 1 ≤ s)
    (h0x : img.Rect.minX = 0) (fuel : Nat) (hf : img.Rect.dx ≤ fuel)
    (y : Int) (res0 : RGBAImage) (hr0 : res0.Rect = img.Rect) :
    ∃ res, forStep img.Rect.maxX s (fun x result =>
        some (forRange 0 (min s (img.Rect.maxY - y)) (fun dy result =>
          forRange 0 (min s (img.Rect.maxX - x)) (fun dx result =>
            result.Set (x + dx) (y + dy) (img.At x y)) result) result)) fuel 0 res0 = some res
      ∧ res.Rect = img.Rect
      ∧ ∀ u w, res.At u w
          = if y ≤ w ∧ w < y + s ∧ img.Rect.In u w then img.At (s * (u / s)) y
            else res0.At u w := by
  have key := forStep_inv img.Rect.maxX s (fun x (result : RGBAImage) =>
        some (forRange 0 (min s (img.Rect.maxY - y)) (fun dy result =>
          forRange 0 (min s (img.Rect.maxX - x)) (fun dx result =>
            result.Set (x + dx) (y + dy) (img.At x y)) result) result)) hs
    (fun x (st : RGBAImage) => x % s = 0 ∧ 0 ≤ x ∧ st.Rect = img.Rect ∧ ∀ u w, st.At u w
        = if y ≤ w ∧ w < y + s ∧ u < x ∧ img.Rect.In u w then img.At (s * (u / s)) y
          else res0.At u w)
    (by
      rintro x st hx ⟨hxm, hx0, hr, hat⟩
      refine ⟨_, rfl, ?_, by omega, ?_, ?_⟩
      · rw [Int.add_emod_self]
        exact hxm
      · rw [(fillRect_spec st _ _ _ _ _ _ _).1, hr]
      · intro u w
        rw [(fillRect_spec st _ _ _ _ _ _ _).2, hat, hr]
        by_cases hin : img.Rect.In u w
        · have hin2 := hin
          simp only [Rectangle.In, Rectangle.maxX, Rectangle.maxY, h0x] at hin2
          simp only [Rectangle.maxX, Rectangle.maxY, h0x] at hx ⊢
          by_cases hw : y ≤ w ∧ w < y + s
          · by_cases hu : x ≤ u
            · by_cases hu2 : u < x + s
              · rw [if_pos ⟨by omega, by omega, by omega, by omega, hin⟩,
                  if_pos ⟨hw.1, hw.2, hu2, hin⟩, block_origin hs hxm hu hu2]
              · rw [if_neg (by rintro ⟨h1, h2, h3, h4, h5⟩; omega),
                  if_neg (by rintro ⟨h1, h2, h3, h4⟩; omega),
                  if_neg (by rintro ⟨h1, h2, h3, h4⟩; omega)]
            · rw [if_neg (by rintro ⟨h1, h2, h3, h4, h5⟩; omega),
                if_pos ⟨hw.1, hw.2, by omega, hin⟩, if_pos ⟨hw.1, hw.2, by omega, hin⟩]
          · rw [if_neg (by rintro ⟨h1, h2, h3, h4, h5⟩; omega),
              if_neg (by rintro ⟨h1, h2, h3, h4⟩; omega),
              if_neg (by rintro ⟨h1, h2, h3, h4⟩; omega)]
        · rw [if_neg (fun h => hin h.2.2.2.2), if_neg (fun h => hin h.2.2.2),
            if_neg (fun h => hin h.2.2.2)])
  obtain ⟨x2, res, hres, hx2, _, _, hr, hat⟩ := key fuel 0 res0
    (by simp only [Rectangle.maxX, h0x]; omega)
    ⟨by simp, le_refl _, hr0, by
      intro u w
      by_cases hin : img.Rect.In u w
      · have hin2 := hin
        simp only [Rectangle.In, Rectangle.maxX, Rectangle.maxY, h0x] at hin2
        rw [if_neg (by rintro ⟨h1, h2, h3, h4⟩; omega)]
      · rw [if_neg (fun h => hin h.2.2.2)]⟩
  refine ⟨res, hres, hr, ?_⟩
  intro u w
  rw [hat]
  by_cases hin : img.Rect.In u w
  · have hin2 := hin
    simp only [Rectangle.In, Rectangle.maxX, Rectangle.maxY, h0x] at hin2
    simp only [Rectangle.maxX, h0x] at hx2
    by_cases hw : y ≤ w ∧ w < y + s
    · rw [if_pos ⟨hw.1, hw.2, by omega, hin⟩, if_pos ⟨hw.1, hw.2, hin⟩]
    · rw [if_neg (fun h => hw ⟨h.1, h.2.1⟩), if_neg (fun h => hw ⟨h.1, h.2.1⟩)]
  · rw [if_neg (fun h => hin h.2.2.2), if_neg (fun h => hin h.2.2)]

/-- With block size `s ≥ 1` on a grid at the origin, `pixelate` returns once the fuel
covers the width and the height, and every cell holds the colour of its block corner;
outside the rectangle the grid reads as the zero colour. -/
theorem pixelate_cells (img : RGBAImage) (s : Int) (hs : 1 ≤ s)
    (h0x : img.Rect.minX = 0) (h0y : img.Rect.minY = 0) (fuel : Nat)
    (hfx : img.Rect.dx ≤ fuel) (hfy : img.Rect.dy ≤ fuel) :
    ∃ res, pixelate fuel img s = some res
      ∧ res.Rect = img.Rect
      ∧ ∀ u w, res.At u w
          = if img.Rect.In u w then img.At (s * (u / s)) (s * (w / s)) else RGBA.zero := by
  unfold pixelate
  have key := forStep_inv img.Rect.maxY s (fun y (result : RGBAImage) =>
      forStep img.Rect.maxX s (fun x result =>
        some (forRange 0 (min s (img.Rect.maxY - y)) (fun dy result =>
          forRange 0 (min s (img.Rect.maxX - x)) (fun dx result =>
            result.Set (x + dx) (y + dy) (img.At x y)) result) result)) fuel 0 result) hs
    (fun y (st : RGBAImage) => y % s = 0 ∧ 0 ≤ y ∧ st.Rect = img.Rect ∧ ∀ u w, st.At u w
        = if w < y ∧ img.Rect.In u w then img.At (s * (u / s)) (s * (w / s))
          else RGBA.zero)
    (by
      rintro y st hy ⟨hym, hy0, hr, hat⟩
      obtain ⟨res, hres, hr2, hat2⟩ := pixelate_row img s hs h0x fuel hfx y st hr
      refine ⟨res, hres, ?_, by omega, hr2, ?_⟩
      · rw [Int.add_emod_self]
        exact hym
      · intro u w
        rw [hat2, hat]
        by_cases hin : img.Rect.In u w
        · have hin2 := hin
          simp only [Rectangle.In, Rectangle.maxX, Rectangle.maxY, h0y] at hin2
          by_cases hw : y ≤ w
          · by_cases hw2 : w < y + s
            · rw [if_pos ⟨hw, hw2, hin⟩, if_pos ⟨hw2, hin⟩, block_origin hs hym hw hw2]
            · rw [if_neg (fun h => hw2 h.2.1), if_neg (by rintro ⟨h1, h2⟩; omega),
                if_neg (fun h => hw2 h.1)]
          · rw [if_neg (fun h => hw h.1), if_pos ⟨by omega, hin⟩, if_pos ⟨by omega, hin⟩]
        · rw [if_neg (fun h => hin h.2.2), if_neg (fun h => hin h.2),
            if_neg (fun h => hin h.2)])
  obtain ⟨y2, res, hres, hy2, _, _, hr, hat⟩ := key fuel 0 (NewRGBA img.Rect)
    (by simp only [Rectangle.maxY, h0y]; omega)
    ⟨by simp, le_refl _, rfl, by
      intro u w
      rw [NewRGBA_At]
      by_cases hin : img.Rect.In u w
      · have hin2 := hin
        simp only [Rectangle.In, Rectangle.maxX, Rectangle.maxY, h0y] at hin2
        rw [if_neg (by rintro ⟨h1, h2⟩; omega)]
      · rw [if_neg (fun h => hin h.2)]⟩
  refine ⟨res, hres, hr, ?_⟩
  intro u w
  rw [hat]
  by_cases hin : img.Rect.In u w
  · have hin2 := hin
    simp only [Rectangle.In, Rectangle.maxX, Rectangle.maxY, h0y] at hin2
    simp only [Rectangle.maxY, h0y] at hy2
    rw [if_pos ⟨by omega, hin⟩, if_pos hin]
  · rw [if_neg (fun h => hin h.2), if_neg hin]

/-! ### The pixel list -/

theorem collectRow_mem (f : Int → pixel) (lo hi : Int) (st0 : List pixel) (p : pixel) :
    p ∈ forRange lo hi (fun x pixels => pixels ++ [f x]) st0
      ↔ p ∈ st0 ∨ ∃ x, lo ≤ x ∧ x < hi ∧ p = f x := by
  have key := forRange_inv lo hi (fun x pixels => pixels ++ [f x]) st0
    (fun i (st : List pixel) =>
      ∀ q, q ∈ st ↔ q ∈ st0 ∨ ∃ x, lo ≤ x ∧ x < lo + (i : Int) ∧ q = f x)
    (by
      intro q
      constructor
      · intro h
        exact Or.inl h
      · rintro (h | ⟨x, h1, h2, _⟩)
        · exact h
        · omega)
    (by
      intro i st _ hst q
      rw [List.mem_append, hst q, List.mem_singleton]
      constructor
      · rintro ((h | ⟨x, h1, h2, h3⟩) | h)
        · exact Or.inl h
        · exact Or.inr ⟨x, h1, by omega, h3⟩
        · exact Or.inr ⟨lo + (i : Int), by omega, by omega, h⟩
      · rintro (h | ⟨x, h1, h2, h3⟩)
        · exact Or.inl (Or.inl h)
        · by_cases hx : x = lo + (i : Int)
          · subst hx
            exact Or.inr h3
          · exact Or.inl (Or.inr ⟨x, h1, by omega, h3⟩))
  rw [key p]
  constructor
  · rintro (h | ⟨x, h1, h2, h3⟩)
    · exact Or.inl h
    · exact Or.inr ⟨x, h1, by omega, h3⟩
  · rintro (h | ⟨x, h1, h2, h3⟩)
    · exact Or.inl h
    · exact Or.inr ⟨x, h1, by omega, h3⟩

/-- The pixel list holds exactly the samples of the cells inside the bounds. -/
theorem mem_collectPixels (img : Image) (p : pixel) :
    p ∈ collectPixels img ↔ ∃ x y, img.Bounds.In x y ∧ p = img.At x y := by
  unfold collectPixels
  have key := forRange_inv img.Bounds.minY img.Bounds.maxY (fun y pixels =>
      forRange img.Bounds.minX img.Bounds.maxX (fun x pixels =>
        pixels ++ [img.At x y]) pixels) []
    (fun i (st : List pixel) =>
      ∀ q, q ∈ st ↔ ∃ x y, img.Bounds.minX ≤ x ∧ x < img.Bounds.maxX
        ∧ img.Bounds.minY ≤ y ∧ y < img.Bounds.minY + (i : Int) ∧ q = img.At x y)
    (by
      intro q
      constructor
      · intro h
        simp at h
      · rintro ⟨x, y, _, _, h1, h2, _⟩
        omega)
    (by
      intro i st _ hst q
      rw [collectRow_mem (fun x => img.At x (img.Bounds.minY + (i : Int))), hst q]
      constructor
      · rintro (⟨x, y, h1, h2, h3, h4, h5⟩ | ⟨x, h1, h2, h3⟩)
        · exact ⟨x, y, h1, h2, h3, by omega, h5⟩
        · exact ⟨x, _, h1, h2, by omega, by omega, h3⟩
      · rintro ⟨x, y, h1, h2, h3, h4, h5⟩
        by_cases hy : y = img.Bounds.minY + (i : Int)
        · subst hy
          exact Or.inr ⟨x, h1, h2, h5⟩
        · exact Or.inl ⟨x, y, h1, h2, h3, by omega, h5⟩)
  rw [key p]
  constructor
  · rintro ⟨x, y, h1, h2, h3, h4, h5⟩
    exact ⟨x, y, ⟨h1, h2, h3, by omega⟩, h5⟩
  · rintro ⟨x, y, ⟨h1, h2, h3, h4⟩, h5⟩
    exact ⟨x, y, h1, h2, h3, by omega, h5⟩

/-! ### Invariants of the k-means rounds -/

theorem sumChannels_le (l : List pixel) (acc : Nat × Nat × Nat × Nat)
    (hl : ∀ p ∈ l, p.chan16) :
    (sumChannels l acc).1 ≤ acc.1 + 65535 * l.length
      ∧ (sumChannels l acc).2.1 ≤ acc.2.1 + 65535 * l.length
      ∧ (sumChannels l acc).2.2.1 ≤ acc.2.2.1 + 65535 * l.length
      ∧ (sumChannels l acc).2.2.2 ≤ acc.2.2.2 + 65535 * l.length := by
  induction l generalizing acc with
  | nil =>
    obtain ⟨r, g, b, a⟩ := acc
    simp [sumChannels]
  | cons p ps ih =>
    obtain ⟨r, g, b, a⟩ := acc
    unfold sumChannels
    have hp := hl p (List.mem_cons_self _ _)
    unfold pixel.chan16 at hp
    have h := ih ((r + p.R) % 18446744073709551616, (g + p.G) % 18446744073709551616,
      (b + p.B) % 18446744073709551616, (a + p.A) % 18446744073709551616)
      (fun q hq => hl q (List.mem_cons_of_mem _ hq))
    simp only [List.length_cons] at h ⊢
    omega

theorem mean_le {sum n : Nat} (h : sum ≤ 0 + 65535 * n) : sum / n % 4294967296 ≤ 65535 := by
  have h1 : sum / n ≤ 65535 := by
    apply Nat.div_le_of_le_mul
    rw [Nat.mul_comm]
    omega
  exact le_trans (Nat.mod_le _ _) h1

/-- The mean of 16-bit pixels is a 16-bit pixel. -/
theorem meanPixel_chan16 (cl : List pixel) (hl : ∀ p ∈ cl, p.chan16) :
    (meanPixel cl).chan16 := by
  obtain ⟨h1, h2, h3, h4⟩ := sumChannels_le cl (0, 0, 0, 0) hl
  unfold meanPixel pixel.chan16
  exact ⟨mean_le h1, mean_le h2, mean_le h3, mean_le h4⟩

theorem assignPixels_some (cs : List pixel) (hne : cs ≠ []) (ps : List pixel)
    (clusters : List (List pixel)) (hlen : clusters.length = cs.length) :
    ∃ out, assignPixels cs ps clusters = some out ∧ out.length = cs.length
      ∧ ∀ cl ∈ out, ∀ p ∈ cl, p ∈ ps ∨ ∃ cl0 ∈ clusters, p ∈ cl0 := by
  induction ps generalizing clusters with
  | nil =>
    exact ⟨clusters, rfl, hlen, fun cl hcl p hp => Or.inr ⟨cl, hcl, hp⟩⟩
  | cons q qs ih =>
    have hidx : clusterIdx cs q < clusters.length := by
      rw [hlen]
      exact clusterIdx_lt q hne
    obtain ⟨out, hout, hol, hmem⟩ := ih
      (clusters.set (clusterIdx cs q) (clusters[clusterIdx cs q] ++ [q]))
      (by rw [List.length_set, hlen])
    refine ⟨out, ?_, hol, ?_⟩
    · unfold assignPixels
      rw [List.getElem?_eq_getElem hidx]
      exact hout
    · intro cl hcl p hp
      rcases hmem cl hcl p hp with h | ⟨cl0, hcl0, hp0⟩
      · exact Or.inl (List.mem_cons_of_mem _ h)
      · rcases List.mem_or_eq_of_mem_set hcl0 with h | h
        · exact Or.inr ⟨cl0, h, hp0⟩
        · rw [h, List.mem_append, List.mem_singleton] at hp0
          rcases hp0 with h2 | h2
          · exact Or.inr ⟨_, List.getElem_mem _, h2⟩
          · rw [h2]
            exact Or.inl (List.mem_cons_self _ _)

theorem updateCentroids_inv (clusters : List (List pixel)) (i : Nat) (cs : List pixel)
    (hcs : ∀ c ∈ cs, c.chan16) (hcl : ∀ cl ∈ clusters, ∀ p ∈ cl, p.chan16) :
    (updateCentroids clusters i cs).length = cs.length
      ∧ ∀ c ∈ updateCentroids clusters i cs, c.chan16 := by
  induction clusters generalizing i cs with
  | nil => exact ⟨rfl, hcs⟩
  | cons cl rest ih =>
    unfold updateCentroids
    have hrest : ∀ cl2 ∈ rest, ∀ p ∈ cl2, p.chan16 :=
      fun cl2 h => hcl cl2 (List.mem_cons_of_mem _ h)
    by_cases h0 : cl.length = 0
    · rw [if_pos h0]
      exact ih (i + 1) cs hcs hrest
    · rw [if_neg h0]
      have h := ih (i + 1) (cs.set i (meanPixel cl))
        (by
          intro c hc
          rcases List.mem_or_eq_of_mem_set hc with h | h
          · exact hcs c h
          · rw [h]
            exact meanPixel_chan16 cl (hcl cl (List.mem_cons_self _ _)))
        hrest
      rw [List.length_set] at h
      exact h

/-- One round keeps the number of centroids and their 16-bit range, and does not
panic when there is at least one centroid. -/
theorem kmeansRound_inv (pixels : List pixel) (hpx : ∀ p ∈ pixels, p.chan16)
    (cs : List pixel) (hne : cs ≠ []) (hcs : ∀ c ∈ cs, c.chan16) :
    ∃ cs2, kmeansRound pixels cs.length cs = some cs2 ∧ cs2.length = cs.length
      ∧ ∀ c ∈ cs2, c.chan16 := by
  obtain ⟨out, hout, _, hmem⟩ := assignPixels_some cs hne pixels
    (List.replicate cs.length []) (by simp)
  have hcl : ∀ cl ∈ out, ∀ p ∈ cl, p.chan16 := by
    intro cl hcl p hp
    rcases hmem cl hcl p hp with h | ⟨cl0, hcl0, hp0⟩
    · exact hpx p h
    · rw [List.eq_of_mem_replicate hcl0] at hp0
      simp at hp0
  have h := updateCentroids_inv out 0 cs hcs hcl
  refine ⟨updateCentroids out 0 cs, ?_, h.1, h.2⟩
  unfold kmeansRound
  rw [hout]
  rfl

theorem kmeans_inv (pixels : List pixel) (hpx : ∀ p ∈ pixels, p.chan16) (k n : Nat)
    (cs : List pixel) (hk : 1 ≤ k) (hlen : cs.length = k) (hcs : ∀ c ∈ cs, c.chan16) :
    ∃ cs2, kmeans pixels k n cs = some cs2 ∧ cs2.length = k ∧ ∀ c ∈ cs2, c.chan16 := by
  induction n generalizing cs with
  | zero => exact ⟨cs, rfl, hlen, hcs⟩
  | succ n ih =>
    have hne : cs ≠ [] := by
      intro h
      rw [h] at hlen
      simp at hlen
      omega
    obtain ⟨cs1, h1, hl1, hc1⟩ := kmeansRound_inv pixels hpx cs hne hcs
    obtain ⟨cs2, h2, hl2, hc2⟩ := ih cs1 (by rw [hl1, hlen]) hc1
    refine ⟨cs2, ?_, hl2, hc2⟩
    unfold kmeans
    rw [← hlen, h1, Option.some_bind, hlen]
    exact h2

/-- Whatever the initialisation returns from 16-bit pixels is `k` 16-bit centroids. -/
theorem initCentroids_chan16 (pixels : List pixel) (hpx : ∀ p ∈ pixels, p.chan16)
    (k : Nat) (cs : List pixel) (h : initCentroids pixels k = some cs) :
    cs.length = k ∧ ∀ c ∈ cs, c.chan16 := by
  obtain ⟨hlen, hmem⟩ := initCentroids_sound pixels k cs h
  refine ⟨hlen, ?_⟩
  intro c hc
  rcases hmem c hc with hp | hz
  · exact hpx c hp
  · rw [hz]
    decide

/-- For `k ≥ 1`, 16-bit samples and no overflow of the stride product, the rounds end
without a panic with `k` centroids in the 16-bit range. -/
theorem centroidsAfter_inv (img : Image)
    (himg : ∀ x y, img.Bounds.In x y → (img.At x y).chan16) (k n : Nat) (hk : 1 ≤ k)
    (hfit : strideFits (collectPixels img).length k) :
    ∃ cs, centroidsAfter n img (k : Int) = some cs ∧ cs.length = k
      ∧ ∀ c ∈ cs, c.chan16 := by
  have hpx : ∀ p ∈ collectPixels img, p.chan16 := by
    intro p hp
    obtain ⟨x, y, hin, rfl⟩ := (mem_collectPixels img p).mp hp
    exact himg x y hin
  obtain ⟨cs0, h0, _, _, _⟩ := initCentroids_eq (collectPixels img) k hfit
  obtain ⟨hl0, hc0⟩ := initCentroids_chan16 (collectPixels img) hpx k cs0 h0
  obtain ⟨cs, h1, hl1, hc1⟩ := kmeans_inv (collectPixels img) hpx k n cs0 hk hl0 hc0
  refine ⟨cs, ?_, hl1, hc1⟩
  unfold centroidsAfter
  rw [if_neg (by omega), Int.toNat_ofNat, h0, Option.some_bind]
  exact h1

/-! ### Claims on remapping, pixelation and the pipeline -/

theorem sample2x2_chan16 (x y : Int) : (sample2x2.At x y).chan16 := by
  simp only [sample2x2, grey]
  split_ifs <;> decide

/-- Witness for C6 on the 2x2 sample grid with a black and a white centroid. -/
theorem remap_spec_witness :
    (remap sample2x2 [grey 0, grey 65535]).Rect = sample2x2.Bounds
      ∧ (remap sample2x2 [grey 0, grey 65535]).Rect.dx = sample2x2.Bounds.dx
      ∧ (remap sample2x2 [grey 0, grey 65535]).Rect.dy = sample2x2.Bounds.dy
      ∧ ∀ x y, sample2x2.Bounds.In x y →
          ∃ j c, firstNearest [grey 0, grey 65535] (sample2x2.At x y) j c
            ∧ (remap sample2x2 [grey 0, grey 65535]).At x y
              = ⟨c.R >>> 8, c.G >>> 8, c.B >>> 8, c.A >>> 8⟩ :=
  remap_spec sample2x2 [grey 0, grey 65535] (by decide) (by decide)
    (fun x y _ => sample2x2_chan16 x y)

/-- C7: for a grid with origin `(0, 0)` and block size `s ≥ 1`, `pixelate` returns as
soon as the fuel covers the width and the height, the result has the rectangle (width
and height) of the input, and every cell `(x, y)` with `0 ≤ x < w`, `0 ≤ y < h` holds
the input colour at its block corner `(s * (x / s), s * (y / s))`, partial blocks at
the right and bottom edges included. -/
theorem pixelate_spec (img : RGBAImage) (s : Int) (hs : 1 ≤ s)
    (h0x : img.Rect.minX = 0) (h0y : img.Rect.minY = 0) (fuel : Nat)
    (hfx : img.Rect.dx ≤ fuel) (hfy : img.Rect.dy ≤ fuel) :
    ∃ res, pixelate fuel img s = some res
      ∧ res.Rect = img.Rect
      ∧ ∀ x y : Int, 0 ≤ x → x < img.Rect.dx → 0 ≤ y → y < img.Rect.dy →
          res.At x y = img.At (s * (x / s)) (s * (y / s)) := by
  obtain ⟨res, hres, hr, hat⟩ := pixelate_cells img s hs h0x h0y fuel hfx hfy
  refine ⟨res, hres, hr, ?_⟩
  intro x y hx0 hx1 hy0 hy1
  rw [hat, if_pos]
  simp only [Rectangle.In, Rectangle.maxX, Rectangle.maxY, h0x, h0y]
  omega

/-- Witness for C7: block size 2 on the 4x4 checkerboard. -/
theorem pixelate_spec_witness :
    ∃ res, pixelate 4 checker4x4 2 = some res
      ∧ res.Rect = checker4x4.Rect
      ∧ ∀ x y : Int, 0 ≤ x → x < checker4x4.Rect.dx → 0 ≤ y → y < checker4x4.Rect.dy →
          res.At x y = checker4x4.At (2 * (x / 2)) (2 * (y / 2)) :=
  pixelate_spec checker4x4 2 (by decide) rfl rfl 4 (by decide) (by decide)

theorem corner_in {r : Rectangle} {s x y : Int} (hs : 1 ≤ s) (h0x : r.minX = 0)
    (h0y : r.minY = 0) (h : r.In x y) : r.In (s * (x / s)) (s * (y / s)) := by
  simp only [Rectangle.In, Rectangle.maxX, Rectangle.maxY, h0x, h0y] at h ⊢
  have hx := Int.ediv_add_emod x s
  have hy := Int.ediv_add_emod y s
  have hxr := Int.emod_nonneg x (by omega : s ≠ 0)
  have hyr := Int.emod_nonneg y (by omega : s ≠ 0)
  have hxq : 0 ≤ s * (x / s) := mul_nonneg (by omega) (Int.ediv_nonneg h.1 (by omega))
  have hyq : 0 ≤ s * (y / s) := mul_nonneg (by omega) (Int.ediv_nonneg h.2.2.1 (by omega))
  omega

/-- C8, amended to grids with origin `(0, 0)`: for such a source grid with 16-bit
channels, `k ≥ 1` and `s ≥ 1` (and no `int` overflow of the stride product, so that the
initialisation returns), `quantize` and then `pixelate` both return, every cell
of the final grid is the 8-bit narrowing of one of the `k` final centroids, the cells
take at most `k` distinct colours, and every colour of the final grid is the colour of
a cell of the quantized grid. -/
theorem pipeline_palette (img : Image) (k : Nat) (s : Int) (hk : 1 ≤ k) (hs : 1 ≤ s)
    (h0x : img.Bounds.minX = 0) (h0y : img.Bounds.minY = 0)
    (himg : ∀ x y, img.Bounds.In x y → (img.At x y).chan16)
    (hfit : strideFits (collectPixels img).length k)
    (fuel : Nat) (hfx : img.Bounds.dx ≤ fuel) (hfy : img.Bounds.dy ≤ fuel) :
    ∃ cs out fin, finalCentroids img (k : Int) = some cs ∧ cs.length = k
      ∧ quantize img (k : Int) = some out ∧ pixelate fuel out s = some fin
      ∧ (∀ x y, img.Bounds.In x y →
          ∃ c ∈ cs, fin.At x y = ⟨c.R >>> 8, c.G >>> 8, c.B >>> 8, c.A >>> 8⟩)
      ∧ (∃ palette : Finset RGBA, palette.card ≤ k
          ∧ ∀ x y, img.Bounds.In x y → fin.At x y ∈ palette)
      ∧ (∀ x y, img.Bounds.In x y →
          ∃ x2 y2, img.Bounds.In x2 y2 ∧ fin.At x y = out.At x2 y2) := by
  obtain ⟨cs, hcs, hlen, h16⟩ := centroidsAfter_inv img himg k 5 hk hfit
  have hne : cs ≠ [] := by
    intro h
    rw [h] at hlen
    simp at hlen
    omega
  obtain ⟨hrect, hout⟩ := remap_cells img cs
  obtain ⟨fin, hfin, _, hat⟩ := pixelate_cells (remap img cs) s hs
    (by rw [hrect]; exact h0x) (by rw [hrect]; exact h0y) fuel
    (by rw [hrect]; exact hfx) (by rw [hrect]; exact hfy)
  have hcell : ∀ x y, img.Bounds.In x y →
      fin.At x y = narrow (nearest cs (img.At (s * (x / s)) (s * (y / s)))) := by
    intro x y hin
    rw [hat, hrect, if_pos hin, hout, if_pos (corner_in hs h0x h0y hin)]
  have hmem : ∀ x y, img.Bounds.In x y →
      nearest cs (img.At (s * (x / s)) (s * (y / s))) ∈ cs := by
    intro x y hin
    obtain ⟨j, hj⟩ := nearest_firstNearest hne h16
      (himg _ _ (corner_in hs h0x h0y hin))
    exact List.getElem?_mem hj.1
  refine ⟨cs, remap img cs, fin, hcs, hlen, ?_, hfin, ?_, ?_, ?_⟩
  · unfold quantize
    unfold finalCentroids
    rw [hcs]
    rfl
  · intro x y hin
    refine ⟨_, hmem x y hin, ?_⟩
    rw [hcell x y hin]
    exact narrow_of_chan16 (h16 _ (hmem x y hin))
  · refine ⟨(cs.map narrow).toFinset, ?_, ?_⟩
    · have h := List.toFinset_card_le (cs.map narrow)
      rw [List.length_map, hlen] at h
      exact h
    · intro x y hin
      rw [hcell x y hin, List.mem_toFinset]
      exact List.mem_map_of_mem _ (hmem x y hin)
  · intro x y hin
    refine ⟨_, _, corner_in hs h0x h0y hin, ?_⟩
    rw [hat, hrect, if_pos hin]

/-- Witness for the amended C8 on the 2x2 sample grid, two colours and block size 2. -/
theorem pipeline_palette_witness :
    ∃ cs out fin, finalCentroids sample2x2 ((2 : Nat) : Int) = some cs ∧ cs.length = 2
      ∧ quantize sample2x2 ((2 : Nat) : Int) = some out ∧ pixelate 2 out 2 = some fin
      ∧ (∀ x y, sample2x2.Bounds.In x y →
          ∃ c ∈ cs, fin.At x y = ⟨c.R >>> 8, c.G >>> 8, c.B >>> 8, c.A >>> 8⟩)
      ∧ (∃ palette : Finset RGBA, palette.card ≤ 2
          ∧ ∀ x y, sample2x2.Bounds.In x y → fin.At x y ∈ palette)
      ∧ (∀ x y, sample2x2.Bounds.In x y →
          ∃ x2 y2, sample2x2.Bounds.In x2 y2 ∧ fin.At x y = out.At x2 y2) :=
  pipeline_palette sample2x2 2 2 (by decide) (by decide) rfl rfl
    (fun x y _ => sample2x2_chan16 x y) (by decide) 2 (by decide) (by decide)

/-- C8 as stated fails on a grid whose rectangle does not start at the origin: on the
one-cell white grid at `(1, 1)` with one colour and block size 2, the only centroid is
white, the quantized cell `(1, 1)` is its narrowing `(255, 255, 255, 255)`, and the
pixelated cell `(1, 1)` is `(0, 0, 0, 0)`, a colour that is neither the narrowing of a
centroid nor present in the quantized grid. -/
theorem pipeline_offset_counterexample :
    offsetWhite.Bounds.In 1 1
      ∧ finalCentroids offsetWhite 1 = some [grey 65535]
      ∧ narrow (grey 65535) = ⟨255, 255, 255, 255⟩
      ∧ (quantize offsetWhite 1).map (fun out => out.At 1 1) = some ⟨255, 255, 255, 255⟩
      ∧ ((quantize offsetWhite 1).bind (fun out => pixelate 4 out 2)).map
          (fun fin => fin.At 1 1) = some ⟨0, 0, 0, 0⟩ := by
  refine ⟨by decide, by decide, by decide, by decide, by decide⟩

/-! ### Two flat halves -/

theorem collectPixels_twoHalves (a b : pixel) :
    collectPixels (twoHalves a b) = [a, a, a, a, a, a, a, a, b, b, b, b, b, b, b, b] := by
  simp [collectPixels, forRange, twoHalves, Rectangle.maxX, Rectangle.maxY, List.range_succ]

theorem sqDist_pos_of_ne {p q : pixel} (hpq : p ≠ q) (hp : p.chan16) (hq : q.chan16) :
    0 < sqDist p q := by
  rcases Nat.eq_zero_or_pos (sqDist p q) with h | h
  · exact absurd ((sqDist_eq_zero_iff_of_chan16 hp hq).mp h) hpq
  · exact h

theorem clusterIdx_pair (a b : pixel) (hab : a ≠ b) (ha : a.chan16) (hb : b.chan16) :
    clusterIdx [a, b] a = 0 ∧ clusterIdx [a, b] b = 1 := by
  have h1 := sqDist_lt_maxDist hb ha
  have h2 := sqDist_pos_of_ne (fun h => hab h.symm) hb ha
  constructor
  · simp [clusterIdx, assignSearch, sqDist_self, maxDist]
  · simp [clusterIdx, assignSearch, sqDist_self, h1, h2]

theorem nearest_pair (a b : pixel) (hab : a ≠ b) (ha : a.chan16) (hb : b.chan16) :
    nearest [a, b] a = a ∧ nearest [a, b] b = b := by
  have h1 := sqDist_lt_maxDist hb ha
  have h2 := sqDist_pos_of_ne (fun h => hab h.symm) hb ha
  constructor
  · simp [nearest, nearestSearch, sqDist_self, maxDist]
  · simp [nearest, nearestSearch, sqDist_self, h1, h2]

theorem meanPixel_eight (a : pixel) (ha : a.chan16) :
    meanPixel [a, a, a, a, a, a, a, a] = a := by
  obtain ⟨h1, h2, h3, h4⟩ := ha
  cases a
  simp only [meanPixel, sumChannels, List.length_cons, List.length_nil,
    pixel.mk.injEq] at *
  omega

theorem assignPixels_twoHalves (a b : pixel) (hab : a ≠ b) (ha : a.chan16)
    (hb : b.chan16) :
    assignPixels [a, b] [a, a, a, a, a, a, a, a, b, b, b, b, b, b, b, b]
        (List.replicate 2 [])
      = some [[a, a, a, a, a, a, a, a], [b, b, b, b, b, b, b, b]] := by
  obtain ⟨h0, h1⟩ := clusterIdx_pair a b hab ha hb
  simp [assignPixels, h0, h1, List.replicate]

theorem kmeansRound_twoHalves (a b : pixel) (hab : a ≠ b) (ha : a.chan16)
    (hb : b.chan16) :
    kmeansRound [a, a, a, a, a, a, a, a, b, b, b, b, b, b, b, b] 2 [a, b]
      = some [a, b] := by
  unfold kmeansRound
  rw [assignPixels_twoHalves a b hab ha hb]
  simp [updateCentroids, meanPixel_eight a ha, meanPixel_eight b hb]

theorem kmeans_twoHalves (a b : pixel) (hab : a ≠ b) (ha : a.chan16) (hb : b.chan16)
    (n : Nat) :
    kmeans [a, a, a, a, a, a, a, a, b, b, b, b, b, b, b, b] 2 n [a, b] = some [a, b] := by
  induction n with
  | zero => rfl
  | succ n ih =>
    unfold kmeans
    rw [kmeansRound_twoHalves a b hab ha hb, Option.some_bind]
    exact ih

theorem centroidsAfter_twoHalves (a b : pixel) (hab : a ≠ b) (ha : a.chan16)
    (hb : b.chan16) (n : Nat) : centroidsAfter n (twoHalves a b) 2 = some [a, b] := by
  unfold centroidsAfter
  rw [collectPixels_twoHalves]
  have h2 : (2 : Int).toNat = 2 := rfl
  have hi0 : strideIndex 0 16 2 = 0 := by decide
  have hi1 : strideIndex 1 16 2 = 8 := by decide
  have hinit : initCentroids [a, a, a, a, a, a, a, a, b, b, b, b, b, b, b, b] 2
      = some [a, b] := by
    simp [initCentroids, List.range_succ, hi0, hi1, indexAt]
  rw [if_neg (by decide), h2, hinit, Option.some_bind]
  exact kmeans_twoHalves a b hab ha hb n

/-- C9: on the 4x4 grid whose top two rows are `a` and bottom two rows are `b`, with
`a ≠ b` and 16-bit channels, `quantize` with two colours has centroids `[a, b]` at the
start of every round and after the five rounds; in every round each top-half pixel is
assigned to cluster 0 and each bottom-half pixel to cluster 1; and the output grid is
`a` narrowed on the top half and `b` narrowed on the bottom half. -/
theorem twoHalves_quantize (a b : pixel) (hab : a ≠ b) (ha : a.chan16) (hb : b.chan16) :
    finalCentroids (twoHalves a b) 2 = some [a, b]
      ∧ (∀ n, n < 5 → ∃ cs, centroidsAfter n (twoHalves a b) 2 = some cs
          ∧ cs = [a, b]
          ∧ (∀ x y, (twoHalves a b).Bounds.In x y →
              clusterIdx cs ((twoHalves a b).At x y) = if y < 2 then 0 else 1)
          ∧ assignPixels cs (collectPixels (twoHalves a b)) (List.replicate 2 [])
              = some [List.replicate 8 a, List.replicate 8 b])
      ∧ ∃ out, quantize (twoHalves a b) 2 = some out
          ∧ out.Rect = (twoHalves a b).Bounds
          ∧ ∀ x y, (twoHalves a b).Bounds.In x y →
              out.At x y = if y < 2 then ⟨a.R >>> 8, a.G >>> 8, a.B >>> 8, a.A >>> 8⟩
                else ⟨b.R >>> 8, b.G >>> 8, b.B >>> 8, b.A >>> 8⟩ := by
  obtain ⟨hi0, hi1⟩ := clusterIdx_pair a b hab ha hb
  obtain ⟨hn0, hn1⟩ := nearest_pair a b hab ha hb
  refine ⟨centroidsAfter_twoHalves a b hab ha hb 5, ?_, ?_⟩
  · intro n _
    refine ⟨[a, b], centroidsAfter_twoHalves a b hab ha hb n, rfl, ?_, ?_⟩
    · intro x y _
      simp only [twoHalves]
      by_cases hy : y < 2
      · rw [if_pos hy, if_pos hy, hi0]
      · rw [if_neg hy, if_neg hy, hi1]
    · rw [collectPixels_twoHalves, assignPixels_twoHalves a b hab ha hb]
      rfl
  · obtain ⟨hrect, hat⟩ := remap_cells (twoHalves a b) [a, b]
    refine ⟨remap (twoHalves a b) [a, b], ?_, hrect, ?_⟩
    · unfold quantize finalCentroids
      rw [centroidsAfter_twoHalves a b hab ha hb 5]
      rfl
    · intro x y hin
      rw [hat, if_pos hin]
      simp only [twoHalves]
      by_cases hy : y < 2
      · rw [if_pos hy, if_pos hy, hn0, narrow_of_chan16 ha]
      · rw [if_neg hy, if_neg hy, hn1, narrow_of_chan16 hb]

/-- Witness for C9 with a red top half and a blue bottom half. -/
theorem twoHalves_quantize_witness :
    finalCentroids (twoHalves ⟨65535, 0, 0, 65535⟩ ⟨0, 0, 65535, 65535⟩) 2
        = some [⟨65535, 0, 0, 65535⟩, ⟨0, 0, 65535, 65535⟩]
      ∧ (∀ n, n < 5 → ∃ cs,
          centroidsAfter n (twoHalves ⟨65535, 0, 0, 65535⟩ ⟨0, 0, 65535, 65535⟩) 2 = some cs
          ∧ cs = [⟨65535, 0, 0, 65535⟩, ⟨0, 0, 65535, 65535⟩]
          ∧ (∀ x y, (twoHalves ⟨65535, 0, 0, 65535⟩ ⟨0, 0, 65535, 65535⟩).Bounds.In x y →
              clusterIdx cs ((twoHalves ⟨65535, 0, 0, 65535⟩ ⟨0, 0, 65535, 65535⟩).At x y)
                = if y < 2 then 0 else 1)
          ∧ assignPixels cs
              (collectPixels (twoHalves ⟨65535, 0, 0, 65535⟩ ⟨0, 0, 65535, 65535⟩))
              (List.replicate 2 [])
              = some [List.replicate 8 ⟨65535, 0, 0, 65535⟩,
                  List.replicate 8 ⟨0, 0, 65535, 65535⟩])
      ∧ ∃ out, quantize (twoHalves ⟨65535, 0, 0, 65535⟩ ⟨0, 0, 65535, 65535⟩) 2 = some out
          ∧ out.Rect = (twoHalves ⟨65535, 0, 0, 65535⟩ ⟨0, 0, 65535, 65535⟩).Bounds
          ∧ ∀ x y, (twoHalves ⟨65535, 0, 0, 65535⟩ ⟨0, 0, 65535, 65535⟩).Bounds.In x y →
              out.At x y = if y < 2
                then ⟨(65535 : Nat) >>> 8, (0 : Nat) >>> 8, (0 : Nat) >>> 8, (65535 : Nat) >>> 8⟩
                else ⟨(0 : Nat) >>> 8, (0 : Nat) >>> 8, (65535 : Nat) >>> 8, (65535 : Nat) >>> 8⟩ :=
  twoHalves_quantize ⟨65535, 0, 0, 65535⟩ ⟨0, 0, 65535, 65535⟩ (by decide) (by decide)
    (by decide)

/-! ### A single colour -/

theorem sum_map_le (f : pixel → Nat) (l : List pixel) (hf : ∀ p ∈ l, f p ≤ 65535) :
    (l.map f).sum ≤ 65535 * l.length := by
  induction l with
  | nil => simp
  | cons p ps ih =>
    have h1 := hf p (List.mem_cons_self _ _)
    have h2 := ih (fun q hq => hf q (List.mem_cons_of_mem _ hq))
    simp only [List.map_cons, List.sum_cons, List.length_cons]
    omega

/-- While the accumulators stay below `2^64` they hold the exact channel sums. -/
theorem sumChannels_exact (l : List pixel) (acc : Nat × Nat × Nat × Nat)
    (hl : ∀ p ∈ l, p.chan16)
    (hr : acc.1 + 65535 * l.length < 18446744073709551616)
    (hg : acc.2.1 + 65535 * l.length < 18446744073709551616)
    (hb : acc.2.2.1 + 65535 * l.length < 18446744073709551616)
    (ha : acc.2.2.2 + 65535 * l.length < 18446744073709551616) :
    sumChannels l acc = (acc.1 + (l.map pixel.R).sum, acc.2.1 + (l.map pixel.G).sum,
      acc.2.2.1 + (l.map pixel.B).sum, acc.2.2.2 + (l.map pixel.A).sum) := by
  induction l generalizing acc with
  | nil =>
    obtain ⟨r, g, b, a⟩ := acc
    simp [sumChannels]
  | cons p ps ih =>
    obtain ⟨r, g, b, a⟩ := acc
    have hp := hl p (List.mem_cons_self _ _)
    unfold pixel.chan16 at hp
    simp only [List.length_cons] at hr hg hb ha
    unfold sumChannels
    rw [Nat.mod_eq_of_lt (by omega : r + p.R < 18446744073709551616),
      Nat.mod_eq_of_lt (by omega : g + p.G < 18446744073709551616),
      Nat.mod_eq_of_lt (by omega : b + p.B < 18446744073709551616),
      Nat.mod_eq_of_lt (by omega : a + p.A < 18446744073709551616)]
    rw [ih (r + p.R, g + p.G, b + p.B, a + p.A)
      (fun q hq => hl q (List.mem_cons_of_mem _ hq))
      (by simp only; omega) (by simp only; omega) (by simp only; omega)
      (by simp only; omega)]
    simp only [List.map_cons, List.sum_cons, Prod.mk.injEq]
    omega

theorem mean_exact {sum n : Nat} (h : sum ≤ 65535 * n) :
    sum / n % 4294967296 = sum / n := by
  apply Nat.mod_eq_of_lt
  have h1 : sum / n ≤ 65535 := by
    apply Nat.div_le_of_le_mul
    rw [Nat.mul_comm]
    exact h
  omega

/-- The mean of fewer than `2^48` 16-bit pixels is the floor of the exact channel sum
over the count, in each channel. -/
theorem meanPixel_exact (l : List pixel) (hl : ∀ p ∈ l, p.chan16)
    (hlen : l.length < 281474976710656) :
    meanPixel l = ⟨(l.map pixel.R).sum / l.length, (l.map pixel.G).sum / l.length,
      (l.map pixel.B).sum / l.length, (l.map pixel.A).sum / l.length⟩ := by
  unfold meanPixel
  rw [sumChannels_exact l (0, 0, 0, 0) hl (by simp only; omega) (by simp only; omega)
    (by simp only; omega) (by simp only; omega)]
  simp only [zero_add]
  rw [mean_exact (sum_map_le pixel.R l (fun p hp => (hl p hp).1)),
    mean_exact (sum_map_le pixel.G l (fun p hp => (hl p hp).2.1)),
    mean_exact (sum_map_le pixel.B l (fun p hp => (hl p hp).2.2.1)),
    mean_exact (sum_map_le pixel.A l (fun p hp => (hl p hp).2.2.2))]

theorem clusterIdx_single (c p : pixel) : clusterIdx [c] p = 0 := by
  have h := @clusterIdx_lt [c] p (by simp)
  simp only [List.length_singleton] at h
  omega

theorem assignPixels_single (c : pixel) (ps cl : List pixel) :
    assignPixels [c] ps [cl] = some [cl ++ ps] := by
  induction ps generalizing cl with
  | nil => simp [assignPixels]
  | cons q qs ih =>
    unfold assignPixels
    rw [clusterIdx_single]
    simp only [List.getElem?_cons_zero, List.set_cons_zero]
    rw [ih (cl ++ [q])]
    simp

/-- With one centroid a round replaces it by the mean of the whole pixel list. -/
theorem kmeansRound_single (pixels : List pixel) (hne : pixels ≠ []) (c : pixel) :
    kmeansRound pixels 1 [c] = some [meanPixel pixels] := by
  unfold kmeansRound
  have hrep : List.replicate 1 ([] : List pixel) = [[]] := rfl
  rw [hrep, assignPixels_single c pixels []]
  have hlen : pixels.length ≠ 0 := fun h => hne (List.length_eq_zero.mp h)
  simp [updateCentroids, hlen]

theorem kmeans_single (pixels : List pixel) (hne : pixels ≠ []) (n : Nat) (c : pixel) :
    kmeans pixels 1 (n + 1) [c] = some [meanPixel pixels] := by
  induction n generalizing c with
  | zero =>
    unfold kmeans
    rw [kmeansRound_single pixels hne c, Option.some_bind]
    rfl
  | succ n ih =>
    unfold kmeans
    rw [kmeansRound_single pixels hne c, Option.some_bind]
    exact ih (meanPixel pixels)

theorem finalCentroids_single (img : Image) (hne : collectPixels img ≠ []) :
    finalCentroids img 1 = some [meanPixel (collectPixels img)] := by
  have hfit : strideFits (collectPixels img).length 1 := by
    unfold strideFits
    have h0 : min 1 (collectPixels img).length - 1 = 0 := by omega
    rw [h0, Nat.zero_mul]
    decide
  obtain ⟨cs, hcs, hlen, _, _⟩ := initCentroids_eq (collectPixels img) 1 hfit
  obtain ⟨c, rfl⟩ := List.length_eq_one.mp hlen
  unfold finalCentroids centroidsAfter
  have h1 : (1 : Int).toNat = 1 := rfl
  rw [if_neg (by decide), h1, hcs, Option.some_bind]
  exact kmeans_single (collectPixels img) hne 4 c

theorem nearest_single {c p : pixel} (h : sqDist p c < maxDist) : nearest [c] p = c := by
  simp [nearest, nearestSearch, h]

/-- C10: for a non-empty pixel list with 16-bit channels (a Go slice, so of fewer
than `2^48` pixels), `quantize` with one colour ends with a single centroid whose
`R`, `G`, `B` and `A` are the floor of the channel sum over the number of pixels, and
every output cell is that centroid narrowed by `>> 8`. -/
theorem quantize_single (img : Image) (hne : collectPixels img ≠ [])
    (h16 : ∀ p ∈ collectPixels img, p.chan16)
    (hlen : (collectPixels img).length < 2 ^ 48) :
    ∃ c out, finalCentroids img 1 = some [c]
      ∧ c.R = ((collectPixels img).map pixel.R).sum / (collectPixels img).length
      ∧ c.G = ((collectPixels img).map pixel.G).sum / (collectPixels img).length
      ∧ c.B = ((collectPixels img).map pixel.B).sum / (collectPixels img).length
      ∧ c.A = ((collectPixels img).map pixel.A).sum / (collectPixels img).length
      ∧ quantize img 1 = some out
      ∧ out.Rect = img.Bounds
      ∧ ∀ x y, img.Bounds.In x y →
          out.At x y = ⟨c.R >>> 8, c.G >>> 8, c.B >>> 8, c.A >>> 8⟩ := by
  have hfin := finalCentroids_single img hne
  have hmean := meanPixel_exact (collectPixels img) h16 (by norm_num at hlen; exact hlen)
  have hm16 := meanPixel_chan16 (collectPixels img) h16
  obtain ⟨hrect, hat⟩ := remap_cells img [meanPixel (collectPixels img)]
  refine ⟨meanPixel (collectPixels img), remap img [meanPixel (collectPixels img)], hfin,
    ?_, ?_, ?_, ?_, ?_, hrect, ?_⟩
  · rw [hmean]
  · rw [hmean]
  · rw [hmean]
  · rw [hmean]
  · unfold quantize
    rw [hfin]
    rfl
  · intro x y hin
    have hp : (img.At x y).chan16 :=
      h16 _ ((mem_collectPixels img _).mpr ⟨x, y, hin, rfl⟩)
    rw [hat, if_pos hin, nearest_single (sqDist_lt_maxDist hp hm16), narrow_of_chan16 hm16]

theorem collectPixels_sample2x2 :
    collectPixels sample2x2 = [grey 0, grey 1000, grey 40000, grey 65535] := by
  decide

/-- Witness for C10 on the 2x2 sample grid, whose channel sum 106535 is not a multiple
of 4. -/
theorem quantize_single_witness :
    ∃ c out, finalCentroids sample2x2 1 = some [c]
      ∧ c.R = ((collectPixels sample2x2).map pixel.R).sum / (collectPixels sample2x2).length
      ∧ c.G = ((collectPixels sample2x2).map pixel.G).sum / (collectPixels sample2x2).length
      ∧ c.B = ((collectPixels sample2x2).map pixel.B).sum / (collectPixels sample2x2).length
      ∧ c.A = ((collectPixels sample2x2).map pixel.A).sum / (collectPixels sample2x2).length
      ∧ quantize sample2x2 1 = some out
      ∧ out.Rect = sample2x2.Bounds
      ∧ ∀ x y, sample2x2.Bounds.In x y →
          out.At x y = ⟨c.R >>> 8, c.G >>> 8, c.B >>> 8, c.A >>> 8⟩ :=
  quantize_single sample2x2 (by rw [collectPixels_sample2x2]; simp)
    (by rw [collectPixels_sample2x2]; decide)
    (by rw [collectPixels_sample2x2]; norm_num)

/-! ### Remapping a grid of centroid colours -/

/-- A sample that is itself a 16-bit centroid is its own nearest centroid. -/
theorem nearest_of_mem {cs : List pixel} {p : pixel} (hcs : ∀ c ∈ cs, c.chan16)
    (hp : p ∈ cs) : nearest cs p = p := by
  have hne : cs ≠ [] := List.ne_nil_of_mem hp
  obtain ⟨j, hj⟩ := nearest_firstNearest hne hcs (hcs p hp)
  obtain ⟨i, hi⟩ := List.mem_iff_getElem?.mp hp
  have h1 := hj.2.1 i p hi
  rw [sqDist_self] at h1
  have h2 : sqDist p (nearest cs p) = 0 := by omega
  exact ((sqDist_eq_zero_iff_of_chan16 (hcs p hp)
    (hcs _ (List.getElem?_mem hj.1))).mp h2).symm

/-- C11: when every sample of the grid is one of the 16-bit centroids, the remapping
pass with that centroid set gives each cell its own sample narrowed by `>> 8`: the
centroid chosen for a sample is the sample itself, duplicates in the centroid set or
not. -/
theorem remap_idempotent (img : Image) (cs : List pixel) (hcs : ∀ c ∈ cs, c.chan16)
    (himg : ∀ x y, img.Bounds.In x y → img.At x y ∈ cs) :
    (remap img cs).Rect = img.Bounds
      ∧ ∀ x y, img.Bounds.In x y →
          nearest cs (img.At x y) = img.At x y
          ∧ (remap img cs).At x y = ⟨(img.At x y).R >>> 8, (img.At x y).G >>> 8,
              (img.At x y).B >>> 8, (img.At x y).A >>> 8⟩ := by
  obtain ⟨hrect, hat⟩ := remap_cells img cs
  refine ⟨hrect, ?_⟩
  intro x y hin
  have hn := nearest_of_mem hcs (himg x y hin)
  refine ⟨hn, ?_⟩
  rw [hat, if_pos hin, hn]
  exact narrow_of_chan16 (hcs _ (himg x y hin))

theorem sample2x2_mem (x y : Int) : sample2x2.At x y ∈ sampleCentroids := by
  simp only [sample2x2, sampleCentroids]
  split_ifs <;> simp

/-- Witness for C11 on the 2x2 sample grid and its own colours, one of them twice. -/
theorem remap_idempotent_witness :
    (remap sample2x2 sampleCentroids).Rect = sample2x2.Bounds
      ∧ ∀ x y, sample2x2.Bounds.In x y →
          nearest sampleCentroids (sample2x2.At x y) = sample2x2.At x y
          ∧ (remap sample2x2 sampleCentroids).At x y
            = ⟨(sample2x2.At x y).R >>> 8, (sample2x2.At x y).G >>> 8,
                (sample2x2.At x y).B >>> 8, (sample2x2.At x y).A >>> 8⟩ :=
  remap_idempotent sample2x2 sampleCentroids (by decide) (fun x y _ => sample2x2_mem x y)

/-! ### Agreement of the two searches -/

/-- C20: for a 16-bit sample and at least one 16-bit centroid, every distance is
strictly below the initial `minDist`, the value-tracking search of the remapper
returns a member of the centroid set, and that member is the entry at the index the
index-tracking search of the assignment step returns. -/
theorem searches_agree (cs : List pixel) (p : pixel) (hk : 1 ≤ cs.length)
    (hcs : ∀ c ∈ cs, c.chan16) (hp : p.chan16) :
    (∀ c ∈ cs, sqDist p c < maxDist)
      ∧ nearest cs p ∈ cs
      ∧ clusterIdx cs p < cs.length
      ∧ cs[clusterIdx cs p]? = some (nearest cs p) := by
  have hne : cs ≠ [] := by
    intro h
    rw [h] at hk
    simp at hk
  obtain ⟨j, hj⟩ := nearest_firstNearest hne hcs hp
  obtain ⟨c, hc⟩ := clusterIdx_firstNearest hne hcs hp
  obtain ⟨hidx, hval⟩ := firstNearest_unique hj hc
  refine ⟨fun c hc => sqDist_lt_maxDist hp (hcs c hc), List.getElem?_mem hj.1,
    clusterIdx_lt p hne, ?_⟩
  rw [← hidx]
  exact hj.1

/-- Witness for C20 on five centroids and a mid-grey sample. -/
theorem searches_agree_witness :
    (∀ c ∈ sampleCentroids, sqDist (grey 30000) c < maxDist)
      ∧ nearest sampleCentroids (grey 30000) ∈ sampleCentroids
      ∧ clusterIdx sampleCentroids (grey 30000) < sampleCentroids.length
      ∧ sampleCentroids[clusterIdx sampleCentroids (grey 30000)]?
          = some (nearest sampleCentroids (grey 30000)) :=
  searches_agree sampleCentroids (grey 30000) (by decide) (by decide) (by decide)

/-! ### Idempotence of pixelation -/

theorem NewRGBA_clean (r : Rectangle) : (NewRGBA r).clean := by
  intro u w _
  rfl

theorem RGBAImage.Set_clean (m : RGBAImage) (x y : Int) (c : RGBA) (h : m.clean) :
    (m.Set x y c).clean := by
  unfold RGBAImage.Set
  by_cases hxy : m.Rect.In x y
  · rw [if_pos hxy]
    intro u w hin
    have hne : ¬ (u = x ∧ w = y) := by
      rintro ⟨rfl, rfl⟩
      exact hin hxy
    simp only [hne, if_false]
    exact h u w hin
  · rw [if_neg hxy]
    exact h

theorem forRange_pres {σ : Type} (P : σ → Prop) (lo hi : Int) (body : Int → σ → σ)
    (init : σ) (h0 : P init) (hbody : ∀ v st, P st → P (body v st)) :
    P (forRange lo hi body init) :=
  forRange_inv lo hi body init (fun _ st => P st) h0 (fun _ st _ h => hbody _ st h)

theorem forStep_pres {σ : Type} (P : σ → Prop) (hi step : Int)
    (body : Int → σ → Option σ)
    (hbody : ∀ v st st2, P st → body v st = some st2 → P st2) :
    ∀ (fuel : Nat) (v : Int) (st st2 : σ), P st →
      forStep hi step body fuel v st = some st2 → P st2 := by
  intro fuel
  induction fuel with
  | zero =>
    intro v st st2 hp h
    unfold forStep at h
    by_cases hv : v < hi
    · rw [if_pos hv] at h
      exact absurd h (by simp)
    · rw [if_neg hv] at h
      rw [← Option.some.inj h]
      exact hp
  | succ fuel ih =>
    intro v st st2 hp h
    unfold forStep at h
    by_cases hv : v < hi
    · rw [if_pos hv] at h
      obtain ⟨st1, h1, h2⟩ := Option.bind_eq_some.mp h
      exact ih (v + step) st1 st2 (hbody v st st1 hp h1) h2
    · rw [if_neg hv] at h
      rw [← Option.some.inj h]
      exact hp

/-- Whatever `pixelate` returns stores nothing outside its rectangle. -/
theorem pixelate_clean (fuel : Nat) (img : RGBAImage) (s : Int) (r : RGBAImage)
    (h : pixelate fuel img s = some r) : r.clean := by
  unfold pixelate at h
  refine forStep_pres RGBAImage.clean _ _ _ ?_ fuel 0 _ r (NewRGBA_clean _) h
  intro y st st2 hst hrow
  refine forStep_pres RGBAImage.clean _ _ _ ?_ fuel 0 st st2 hst hrow
  intro x st3 st4 hst3 hblock
  rw [← Option.some.inj hblock]
  apply forRange_pres RGBAImage.clean _ _ _ _ hst3
  intro dy st5 hst5
  apply forRange_pres RGBAImage.clean _ _ _ _ hst5
  intro dx st6 hst6
  exact RGBAImage.Set_clean st6 _ _ _ hst6

/-- Two grids with the same rectangle that store nothing outside it and read the
same everywhere are equal. -/
theorem RGBAImage.eq_of_At {m1 m2 : RGBAImage} (hr : m1.Rect = m2.Rect)
    (h1 : m1.clean) (h2 : m2.clean) (hat : ∀ u w, m1.At u w = m2.At u w) : m1 = m2 := by
  obtain ⟨r1, p1⟩ := m1
  obtain ⟨r2, p2⟩ := m2
  simp only at hr
  subst hr
  have hp : p1 = p2 := by
    funext u w
    by_cases hin : r1.In u w
    · have h := hat u w
      simp only [RGBAImage.At, hin, if_true] at h
      exact h
    · exact (h1 u w hin).trans (h2 u w hin).symm
  rw [hp]

theorem corner_corner {s : Int} (hs : 1 ≤ s) (u : Int) :
    s * (s * (u / s) / s) = s * (u / s) := by
  rw [Int.mul_ediv_cancel_left _ (by omega : s ≠ 0)]

/-- C12: for a grid at the origin and block size `s ≥ 1`, `pixelate` applied to its
own result returns that result again; and a grid that is already uniform within every
`s`-aligned block comes back with the same rectangle and the same colour at every
coordinate. -/
theorem pixelate_idempotent (g : RGBAImage) (s : Int) (hs : 1 ≤ s)
    (h0x : g.Rect.minX = 0) (h0y : g.Rect.minY = 0) (fuel : Nat)
    (hfx : g.Rect.dx ≤ fuel) (hfy : g.Rect.dy ≤ fuel) :
    ∃ r, pixelate fuel g s = some r
      ∧ pixelate fuel r s = some r
      ∧ ((∀ x y, g.Rect.In x y → g.At x y = g.At (s * (x / s)) (s * (y / s))) →
          r.Rect = g.Rect ∧ ∀ x y, r.At x y = g.At x y) := by
  obtain ⟨r, hres, hr, hat⟩ := pixelate_cells g s hs h0x h0y fuel hfx hfy
  obtain ⟨r2, hres2, hr2, hat2⟩ := pixelate_cells r s hs (by rw [hr]; exact h0x)
    (by rw [hr]; exact h0y) fuel (by rw [hr]; exact hfx) (by rw [hr]; exact hfy)
  refine ⟨r, hres, ?_, ?_⟩
  · rw [hres2]
    congr 1
    apply RGBAImage.eq_of_At hr2 (pixelate_clean fuel r s r2 hres2)
      (pixelate_clean fuel g s r hres)
    intro u w
    rw [hat2, hat, hat, hr]
    by_cases hin : g.Rect.In u w
    · rw [if_pos hin, if_pos hin, if_pos (corner_in hs h0x h0y hin), corner_corner hs,
        corner_corner hs]
    · rw [if_neg hin, if_neg hin]
  · intro huni
    refine ⟨hr, ?_⟩
    intro x y
    rw [hat]
    by_cases hin : g.Rect.In x y
    · rw [if_pos hin, ← huni x y hin]
    · rw [if_neg hin]
      unfold RGBAImage.At
      rw [if_neg hin]

/-- Witness for C12: block size 2 on the 4x4 checkerboard. -/
theorem pixelate_idempotent_witness :
    ∃ r, pixelate 4 checker4x4 2 = some r
      ∧ pixelate 4 r 2 = some r
      ∧ ((∀ x y, checker4x4.Rect.In x y →
            checker4x4.At x y = checker4x4.At (2 * (x / 2)) (2 * (y / 2))) →
          r.Rect = checker4x4.Rect ∧ ∀ x y, r.At x y = checker4x4.At x y) :=
  pixelate_idempotent checker4x4 2 (by decide) rfl rfl 4 (by decide) (by decide)

/-! ### The assignment step -/

theorem sum_length_set (l : List (List pixel)) (i : Nat) (cl : List pixel) (q : pixel)
    (h : l[i]? = some cl) :
    ((l.set i (cl ++ [q])).map List.length).sum = (l.map List.length).sum + 1 := by
  induction l generalizing i with
  | nil => simp at h
  | cons a as ih =>
    cases i with
    | zero =>
      simp only [List.getElem?_cons_zero, Option.some.injEq] at h
      subst h
      simp only [List.set_cons_zero, List.map_cons, List.sum_cons, List.length_append,
        List.length_singleton]
      omega
    | succ i =>
      simp only [List.getElem?_cons_succ] at h
      simp only [List.set_cons_succ, List.map_cons, List.sum_cons, ih i h]
      omega

/-- The assignment loop appends to each cluster, in list order, the pixels whose
chosen index is that cluster, and adds one element per pixel overall. -/
theorem assignPixels_filter (cs : List pixel) (hne : cs ≠ []) (ps : List pixel)
    (clusters : List (List pixel)) (hlen : clusters.length = cs.length) :
    ∃ out, assignPixels cs ps clusters = some out ∧ out.length = cs.length
      ∧ (∀ j cl, clusters[j]? = some cl →
          out[j]? = some (cl ++ ps.filter (fun p => decide (clusterIdx cs p = j))))
      ∧ (out.map List.length).sum = (clusters.map List.length).sum + ps.length := by
  induction ps generalizing clusters with
  | nil =>
    refine ⟨clusters, rfl, hlen, ?_, by simp⟩
    intro j cl h
    simpa using h
  | cons q qs ih =>
    have hidx : clusterIdx cs q < clusters.length := by
      rw [hlen]
      exact clusterIdx_lt q hne
    have hget : clusters[clusterIdx cs q]? = some clusters[clusterIdx cs q] :=
      List.getElem?_eq_getElem hidx
    obtain ⟨out, hout, hol, hfil, hsum⟩ := ih
      (clusters.set (clusterIdx cs q) (clusters[clusterIdx cs q] ++ [q]))
      (by rw [List.length_set, hlen])
    refine ⟨out, ?_, hol, ?_, ?_⟩
    · unfold assignPixels
      rw [hget]
      exact hout
    · intro j cl hj
      by_cases hji : clusterIdx cs q = j
      · subst hji
        rw [hget] at hj
        have hcl := Option.some.inj hj
        have h1 := hfil (clusterIdx cs q) (clusters[clusterIdx cs q] ++ [q])
          (List.getElem?_set_self hidx)
        rw [h1, List.filter_cons_of_pos (by simp), ← hcl]
        simp
      · have h1 := hfil j cl (by rw [List.getElem?_set_ne hji]; exact hj)
        rw [h1, List.filter_cons_of_neg (by simpa using hji)]
    · rw [hsum, sum_length_set clusters _ _ q hget]
      simp only [List.length_cons]
      omega

/-- C16: with 16-bit pixels and `k ≥ 1` 16-bit centroids, the assignment step returns
`k` buckets; bucket `j` holds, in list order, exactly the pixels whose chosen index is
`j`; the chosen index of a pixel is the smallest index of a centroid at minimal
`sqDist`; and the bucket sizes add up to the number of pixels. -/
theorem assign_partition (cs pixels : List pixel) (hk : 1 ≤ cs.length)
    (hcs : ∀ c ∈ cs, c.chan16) (hpx : ∀ p ∈ pixels, p.chan16) :
    ∃ clusters, assignPixels cs pixels (List.replicate cs.length []) = some clusters
      ∧ clusters.length = cs.length
      ∧ (∀ j, j < cs.length →
          clusters[j]? = some (pixels.filter (fun p => decide (clusterIdx cs p = j))))
      ∧ (∀ p ∈ pixels, clusterIdx cs p < cs.length
          ∧ ∃ c, firstNearest cs p (clusterIdx cs p) c)
      ∧ (clusters.map List.length).sum = pixels.length := by
  have hne : cs ≠ [] := by
    intro h
    rw [h] at hk
    simp at hk
  obtain ⟨out, hout, hol, hfil, hsum⟩ := assignPixels_filter cs hne pixels
    (List.replicate cs.length []) (by simp)
  refine ⟨out, hout, hol, ?_, ?_, ?_⟩
  · intro j hj
    have h := hfil j [] (by simp [List.getElem?_replicate, hj])
    simpa using h
  · intro p hp
    exact ⟨clusterIdx_lt p hne, clusterIdx_firstNearest hne hcs (hpx p hp)⟩
  · rw [hsum]
    simp

/-- Witness for C16: five centroids and the four samples of the 2x2 grid. -/
theorem assign_partition_witness :
    ∃ clusters, assignPixels sampleCentroids [grey 0, grey 1000, grey 40000, grey 65535]
        (List.replicate sampleCentroids.length []) = some clusters
      ∧ clusters.length = sampleCentroids.length
      ∧ (∀ j, j < sampleCentroids.length →
          clusters[j]? = some ([grey 0, grey 1000, grey 40000, grey 65535].filter
            (fun p => decide (clusterIdx sampleCentroids p = j))))
      ∧ (∀ p ∈ [grey 0, grey 1000, grey 40000, grey 65535],
          clusterIdx sampleCentroids p < sampleCentroids.length
          ∧ ∃ c, firstNearest sampleCentroids p (clusterIdx sampleCentroids p) c)
      ∧ (clusters.map List.length).sum
          = [grey 0, grey 1000, grey 40000, grey 65535].length :=
  assign_partition sampleCentroids [grey 0, grey 1000, grey 40000, grey 65535]
    (by decide) (by decide) (by decide)

/-! ### The update step -/

theorem sum_map_le_mul (f : pixel → Nat) (B : Nat) (l : List pixel)
    (hf : ∀ p ∈ l, f p ≤ B) : (l.map f).sum ≤ B * l.length := by
  induction l with
  | nil => simp
  | cons p ps ih =>
    have h1 := hf p (List.mem_cons_self _ _)
    have h2 := ih (fun q hq => hf q (List.mem_cons_of_mem _ hq))
    simp only [List.map_cons, List.sum_cons, List.length_cons, Nat.mul_succ]
    omega

theorem mul_le_sum_map (f : pixel → Nat) (a : Nat) (l : List pixel)
    (hf : ∀ p ∈ l, a ≤ f p) : a * l.length ≤ (l.map f).sum := by
  induction l with
  | nil => simp
  | cons p ps ih =>
    have h1 := hf p (List.mem_cons_self _ _)
    have h2 := ih (fun q hq => hf q (List.mem_cons_of_mem _ hq))
    simp only [List.map_cons, List.sum_cons, List.length_cons, Nat.mul_succ]
    omega

/-- While `acc + B * length` stays below `2^64` the accumulators hold the exact sums. -/
theorem sumChannels_exact_le (B : Nat) (l : List pixel) (acc : Nat × Nat × Nat × Nat)
    (hl : ∀ p ∈ l, p.chanLe B)
    (hr : acc.1 + B * l.length < 18446744073709551616)
    (hg : acc.2.1 + B * l.length < 18446744073709551616)
    (hb : acc.2.2.1 + B * l.length < 18446744073709551616)
    (ha : acc.2.2.2 + B * l.length < 18446744073709551616) :
    sumChannels l acc = (acc.1 + (l.map pixel.R).sum, acc.2.1 + (l.map pixel.G).sum,
      acc.2.2.1 + (l.map pixel.B).sum, acc.2.2.2 + (l.map pixel.A).sum) := by
  induction l generalizing acc with
  | nil =>
    obtain ⟨r, g, b, a⟩ := acc
    simp [sumChannels]
  | cons p ps ih =>
    obtain ⟨r, g, b, a⟩ := acc
    have hp := hl p (List.mem_cons_self _ _)
    unfold pixel.chanLe at hp
    simp only [List.length_cons, Nat.mul_succ] at hr hg hb ha
    unfold sumChannels
    rw [Nat.mod_eq_of_lt (by omega : r + p.R < 18446744073709551616),
      Nat.mod_eq_of_lt (by omega : g + p.G < 18446744073709551616),
      Nat.mod_eq_of_lt (by omega : b + p.B < 18446744073709551616),
      Nat.mod_eq_of_lt (by omega : a + p.A < 18446744073709551616)]
    rw [ih (r + p.R, g + p.G, b + p.B, a + p.A)
      (fun q hq => hl q (List.mem_cons_of_mem _ hq))
      (by simp only; omega) (by simp only; omega) (by simp only; omega)
      (by simp only; omega)]
    simp only [List.map_cons, List.sum_cons, Prod.mk.injEq]
    omega

theorem mean_exact_le {sum n B : Nat} (h : sum ≤ B * n) (hB : B < 4294967296) :
    sum / n % 4294967296 = sum / n := by
  apply Nat.mod_eq_of_lt
  have h1 : sum / n ≤ B := by
    apply Nat.div_le_of_le_mul
    rw [Nat.mul_comm]
    exact h
  omega

/-- When the channels are at most `B < 2^32` and `B * length < 2^64`, nothing wraps
and `meanPixel` is the floor mean of each channel. -/
theorem meanPixel_floorMean (B : Nat) (l : List pixel) (hB : B < 4294967296)
    (hl : ∀ p ∈ l, p.chanLe B) (hlen : B * l.length < 18446744073709551616) :
    meanPixel l = floorMean l := by
  unfold meanPixel floorMean
  rw [sumChannels_exact_le B l (0, 0, 0, 0) hl (by simp only; omega) (by simp only; omega)
    (by simp only; omega) (by simp only; omega)]
  simp only [zero_add]
  rw [mean_exact_le (sum_map_le_mul pixel.R B l (fun p hp => (hl p hp).1)) hB,
    mean_exact_le (sum_map_le_mul pixel.G B l (fun p hp => (hl p hp).2.1)) hB,
    mean_exact_le (sum_map_le_mul pixel.B B l (fun p hp => (hl p hp).2.2.1)) hB,
    mean_exact_le (sum_map_le_mul pixel.A B l (fun p hp => (hl p hp).2.2.2)) hB]

theorem updateCentroids_length (clusters : List (List pixel)) (i : Nat) (cs : List pixel) :
    (updateCentroids clusters i cs).length = cs.length := by
  induction clusters generalizing i cs with
  | nil => rfl
  | cons cl rest ih =>
    unfold updateCentroids
    by_cases h0 : cl.length = 0
    · rw [if_pos h0]
      exact ih (i + 1) cs
    · rw [if_neg h0, ih (i + 1) _, List.length_set]

/-- The update loop started at index `i` leaves the entries below `i` alone. -/
theorem updateCentroids_below (clusters : List (List pixel)) (i j : Nat) (cs : List pixel)
    (hj : j < i) : (updateCentroids clusters i cs)[j]? = cs[j]? := by
  induction clusters generalizing i cs with
  | nil => rfl
  | cons cl rest ih =>
    unfold updateCentroids
    by_cases h0 : cl.length = 0
    · rw [if_pos h0]
      exact ih (i + 1) cs (by omega)
    · rw [if_neg h0, ih (i + 1) _ (by omega), List.getElem?_set_ne (by omega)]

/-- Entry `i + t` after the update loop started at index `i`: untouched when cluster
`t` is empty, the mean of cluster `t` otherwise. -/
theorem updateCentroids_at (clusters : List (List pixel)) (i t : Nat) (cs : List pixel)
    (cl : List pixel) (ht : clusters[t]? = some cl) :
    (updateCentroids clusters i cs)[i + t]?
      = if cl.length = 0 then cs[i + t]?
        else if i + t < cs.length then some (meanPixel cl) else none := by
  induction clusters generalizing i t cs with
  | nil => simp at ht
  | cons cl0 rest ih =>
    unfold updateCentroids
    cases t with
    | zero =>
      simp only [List.getElem?_cons_zero, Option.some.injEq] at ht
      subst ht
      simp only [Nat.add_zero]
      by_cases h0 : cl0.length = 0
      · rw [if_pos h0, if_pos h0]
        exact updateCentroids_below rest (i + 1) i cs (by omega)
      · rw [if_neg h0, if_neg h0, updateCentroids_below rest (i + 1) i _ (by omega),
          List.getElem?_set]
        simp
    | succ t =>
      simp only [List.getElem?_cons_succ] at ht
      have hidx : i + (t + 1) = i + 1 + t := by omega
      rw [hidx]
      by_cases h0 : cl0.length = 0
      · rw [if_pos h0]
        exact ih (i + 1) t cs ht
      · rw [if_neg h0, ih (i + 1) t _ ht, List.length_set,
          List.getElem?_set_ne (by omega)]

/-- C17: for `k` centroids and `k` buckets whose channels are at most `B < 2^32` with
`B * size < 2^64` (so that the `uint64` accumulators do not wrap), the update step
returns `k` centroids; at an index whose bucket is non-empty the new centroid is, in
each channel, the floor of the channel sum over the bucket size; at an index whose
bucket is empty the centroid is as before. -/
theorem update_step (cs : List pixel) (clusters : List (List pixel))
    (hlen : clusters.length = cs.length) (B : Nat) (hB : B < 2 ^ 32)
    (hcl : ∀ cl ∈ clusters, (∀ p ∈ cl, p.chanLe B) ∧ B * cl.length < 2 ^ 64) :
    (updateCentroids clusters 0 cs).length = cs.length
      ∧ ∀ (i : Nat) (cl : List pixel), clusters[i]? = some cl →
          (cl ≠ [] → (updateCentroids clusters 0 cs)[i]?
            = some (pixel.mk ((cl.map pixel.R).sum / cl.length)
                ((cl.map pixel.G).sum / cl.length) ((cl.map pixel.B).sum / cl.length)
                ((cl.map pixel.A).sum / cl.length)))
          ∧ (cl = [] → (updateCentroids clusters 0 cs)[i]? = cs[i]?) := by
  refine ⟨updateCentroids_length clusters 0 cs, ?_⟩
  intro i cl hi
  have hat := updateCentroids_at clusters 0 i cs cl hi
  rw [Nat.zero_add] at hat
  have hil : i < cs.length := by
    rw [← hlen]
    exact (List.getElem?_eq_some.mp hi).1
  constructor
  · intro hne
    have h0 : cl.length ≠ 0 := fun h => hne (List.length_eq_zero.mp h)
    obtain ⟨h1, h2⟩ := hcl cl (List.getElem?_mem hi)
    rw [hat, if_neg h0, if_pos hil,
      meanPixel_floorMean B cl (by norm_num at hB; exact hB) h1
        (by norm_num at h2; exact h2)]
    rfl
  · intro hnil
    rw [hat, if_pos (by rw [hnil]; rfl)]

/-- Witness for C17: three centroids, the middle bucket empty. -/
theorem update_step_witness :
    (updateCentroids [[grey 1, grey 4], [], [grey 65535]] 0 [grey 7, grey 8, grey 9]).length
        = [grey 7, grey 8, grey 9].length
      ∧ ∀ (i : Nat) (cl : List pixel), [[grey 1, grey 4], [], [grey 65535]][i]? = some cl →
          (cl ≠ [] →
            (updateCentroids [[grey 1, grey 4], [], [grey 65535]] 0
              [grey 7, grey 8, grey 9])[i]?
            = some (pixel.mk ((cl.map pixel.R).sum / cl.length)
                ((cl.map pixel.G).sum / cl.length) ((cl.map pixel.B).sum / cl.length)
                ((cl.map pixel.A).sum / cl.length)))
          ∧ (cl = [] →
            (updateCentroids [[grey 1, grey 4], [], [grey 65535]] 0
              [grey 7, grey 8, grey 9])[i]? = [grey 7, grey 8, grey 9][i]?) :=
  update_step [grey 7, grey 8, grey 9] [[grey 1, grey 4], [], [grey 65535]] rfl 65535
    (by norm_num) (by decide)

/-! ### The five rounds -/

theorem kmeans_nil (pixels : List pixel) (n : Nat) (cs : List pixel)
    (h : kmeans pixels 0 n [] = some cs) : cs = [] := by
  induction n with
  | zero =>
    unfold kmeans at h
    exact (Option.some.inj h).symm
  | succ n ih =>
    unfold kmeans at h
    obtain ⟨cs1, h1, h2⟩ := Option.bind_eq_some.mp h
    unfold kmeansRound at h1
    obtain ⟨cl, _, hcl⟩ := Option.map_eq_some'.mp h1
    have hl := updateCentroids_length cl 0 []
    rw [hcl] at hl
    rw [List.length_eq_zero.mp hl] at h2
    exact ih h2

/-- Whatever the rounds return from 16-bit pixels and 16-bit centroids is 16-bit. -/
theorem kmeans_chan16 (pixels : List pixel) (hpx : ∀ p ∈ pixels, p.chan16) (k n : Nat)
    (cs0 cs : List pixel) (hlen : cs0.length = k) (h0 : ∀ c ∈ cs0, c.chan16)
    (h : kmeans pixels k n cs0 = some cs) : ∀ c ∈ cs, c.chan16 := by
  rcases Nat.eq_zero_or_pos k with hk | hk
  · subst hk
    rw [List.length_eq_zero.mp hlen] at h
    rw [kmeans_nil pixels n cs h]
    simp
  · obtain ⟨cs2, h2, _, hc2⟩ := kmeans_inv pixels hpx k n cs0 hk hlen h0
    rw [h] at h2
    rw [Option.some.inj h2]
    exact hc2

theorem nearest_mem_or_zero (cs : List pixel) (p : pixel) :
    nearest cs p ∈ cs ∨ nearest cs p = pixel.zero := by
  unfold nearest
  rcases nearestSearch_spec p cs (maxDist, pixel.zero) with ⟨heq, _⟩ | ⟨j, c, hfn, _, heq⟩
  · rw [heq]
    exact Or.inr rfl
  · rw [heq]
    exact Or.inl (List.getElem?_mem hfn.1)

theorem narrow_div {c : pixel} (h : c.chan16) :
    narrow c = ⟨c.R / 256, c.G / 256, c.B / 256, c.A / 256⟩
      ∧ c.R / 256 ≤ 255 ∧ c.G / 256 ≤ 255 ∧ c.B / 256 ≤ 255 ∧ c.A / 256 ≤ 255 := by
  have hn := narrow_of_chan16 h
  obtain ⟨hr, hg, hb, ha⟩ := h
  rw [hn]
  simp only [Nat.shiftRight_eq_div_pow]
  norm_num
  omega

/-! ### Invalid block size and zero colours -/

/-- A stepped loop with step 0 whose condition holds never exits: it runs out of
fuel whatever the fuel. -/
theorem forStep_stuck {σ : Type} (hi : Int) (body : Int → σ → Option σ) (v : Int)
    (hv : v < hi) : ∀ (fuel : Nat) (st : σ), forStep hi 0 body fuel v st = none := by
  intro fuel
  induction fuel with
  | zero =>
    intro st
    unfold forStep
    rw [if_pos hv]
  | succ fuel ih =>
    intro st
    unfold forStep
    rw [if_pos hv]
    show (body v st).bind (forStep hi 0 body fuel (v + 0)) = none
    cases body v st with
    | none => rfl
    | some st2 =>
      rw [Option.some_bind, add_zero]
      exact ih st2

/-- With block size 0 and at least one row below `Max.Y`, `pixelate` never returns. -/
theorem pixelate_zero_stuck (img : RGBAImage) (h : 0 < img.Rect.maxY) (fuel : Nat) :
    pixelate fuel img 0 = none := by
  unfold pixelate
  exact forStep_stuck _ _ 0 h fuel _

/-- When `Max.Y ≤ 0` the outer loop of `pixelate` does not run and the fresh grid is
returned, whatever the block size and the fuel. -/
theorem pixelate_no_rows (img : RGBAImage) (h : img.Rect.maxY ≤ 0) (s : Int)
    (fuel : Nat) : pixelate fuel img s = some (NewRGBA img.Rect) := by
  unfold pixelate
  unfold forStep
  rw [if_neg (by omega)]

/-- C14 as stated fails: `pixelate` has no error path. With block size 0 on the 4x4
checkerboard it never returns, whatever the fuel (a zero-progress loop), and with
block size 0 on the empty grid it returns a grid. -/
theorem pixelate_zero_counterexample :
    (∀ fuel, pixelate fuel checker4x4 0 = none)
      ∧ (∀ fuel, pixelate fuel emptyGrid 0 = some (NewRGBA emptyGrid.Rect)) :=
  ⟨fun fuel => pixelate_zero_stuck checker4x4 (by decide) fuel,
    fun fuel => pixelate_no_rows emptyGrid (by decide) 0 fuel⟩

/-- C14, amended: `pixelate` does not reject a block size `s ≤ 0`. On a grid with
`Max.Y ≤ 0` it returns the fresh all-zero grid of the same rectangle, and with `s = 0`
on a grid with `Max.Y ≥ 1` it never returns: no amount of fuel is enough. -/
theorem pixelate_invalid_size (img : RGBAImage) (s : Int) (hs : s ≤ 0) :
    (img.Rect.maxY ≤ 0 → ∀ fuel, pixelate fuel img s = some (NewRGBA img.Rect))
      ∧ (0 < img.Rect.maxY → s = 0 → ∀ fuel, pixelate fuel img s = none) := by
  have _ := hs
  constructor
  · intro h fuel
    exact pixelate_no_rows img h s fuel
  · intro h h0 fuel
    rw [h0]
    exact pixelate_zero_stuck img h fuel

/-- Witness for the amended C14 at block size 0 on the 4x4 checkerboard. -/
theorem pixelate_invalid_size_witness :
    (checker4x4.Rect.maxY ≤ 0 →
        ∀ fuel, pixelate fuel checker4x4 0 = some (NewRGBA checker4x4.Rect))
      ∧ (0 < checker4x4.Rect.maxY → (0 : Int) = 0 →
        ∀ fuel, pixelate fuel checker4x4 0 = none) :=
  pixelate_invalid_size checker4x4 0 (by decide)

theorem collectPixels_ne_nil (img : Image) (hdx : 0 < img.Bounds.dx)
    (hdy : 0 < img.Bounds.dy) : collectPixels img ≠ [] := by
  have hin : img.Bounds.In img.Bounds.minX img.Bounds.minY := by
    simp only [Rectangle.In, Rectangle.maxX, Rectangle.maxY]
    omega
  exact List.ne_nil_of_mem ((mem_collectPixels img _).mpr ⟨_, _, hin, rfl⟩)

theorem initCentroids_zero (pixels : List pixel) : initCentroids pixels 0 = some [] := by
  simp [initCentroids]

/-- With no centroid and a pixel to assign, the round panics on `clusters[0]`. -/
theorem kmeansRound_zero (pixels : List pixel) (hne : pixels ≠ []) :
    kmeansRound pixels 0 [] = none := by
  obtain ⟨p, ps, rfl⟩ := List.exists_cons_of_ne_nil hne
  simp [kmeansRound, assignPixels]

/-- C15 as stated fails on a grid without pixels: with `numColors = 0` on the empty
source grid nothing is assigned, nothing panics, and `quantize` returns the (empty)
output grid. -/
theorem quantize_zero_counterexample :
    collectPixels emptySource = []
      ∧ finalCentroids emptySource 0 = some []
      ∧ quantize emptySource 0 = some (NewRGBA emptySource.Bounds) := by
  refine ⟨by decide, by decide, ?_⟩
  rfl

/-- C15, amended to non-empty grids: for a source grid with at least one pixel,
`quantize` with `numColors = 0` aborts: initialisation returns the empty centroid set,
the first round panics on `clusters[0]` when it assigns the first pixel, and neither
centroids nor an output grid are returned. -/
theorem quantize_zero_colors (img : Image) (hdx : 0 < img.Bounds.dx)
    (hdy : 0 < img.Bounds.dy) :
    initCentroids (collectPixels img) 0 = some []
      ∧ kmeansRound (collectPixels img) 0 [] = none
      ∧ finalCentroids img 0 = none
      ∧ quantize img 0 = none := by
  have hne := collectPixels_ne_nil img hdx hdy
  have hinit := initCentroids_zero (collectPixels img)
  have hround := kmeansRound_zero (collectPixels img) hne
  have hfin : finalCentroids img 0 = none := by
    unfold finalCentroids centroidsAfter
    have h0 : (0 : Int).toNat = 0 := rfl
    rw [if_neg (by decide), h0, hinit, Option.some_bind]
    unfold kmeans
    rw [hround]
    rfl
  refine ⟨hinit, hround, hfin, ?_⟩
  unfold quantize
  rw [hfin]
  rfl

/-- Witness for the amended C15 on the 2x2 sample grid. -/
theorem quantize_zero_colors_witness :
    initCentroids (collectPixels sample2x2) 0 = some []
      ∧ kmeansRound (collectPixels sample2x2) 0 [] = none
      ∧ finalCentroids sample2x2 0 = none
      ∧ quantize sample2x2 0 = none :=
  quantize_zero_colors sample2x2 (by decide) (by decide)

/-! ### Centroids stay within the pixels assigned to them -/

/-- The floor mean of a non-empty list lies between two of its values. -/
theorem floor_mean_between (f : pixel → Nat) (l : List pixel) (hne : l ≠ []) :
    (∃ p ∈ l, f p ≤ (l.map f).sum / l.length)
      ∧ (∃ q ∈ l, (l.map f).sum / l.length ≤ f q) := by
  have hpos : 0 < l.length := List.length_pos.mpr hne
  have hdm := Nat.div_add_mod (l.map f).sum l.length
  have hmod := Nat.mod_lt (l.map f).sum hpos
  constructor
  · by_contra hcon
    push_neg at hcon
    have h := mul_le_sum_map f ((l.map f).sum / l.length + 1) l (fun p hp => hcon p hp)
    rw [Nat.add_mul, Nat.one_mul, Nat.mul_comm] at h
    omega
  · by_contra hcon
    push_neg at hcon
    obtain ⟨a, as, rfl⟩ := List.exists_cons_of_ne_nil hne
    have ha := hcon a (List.mem_cons_self _ _)
    obtain ⟨m, hm⟩ : ∃ m, (List.map f (a :: as)).sum / (a :: as).length = m + 1 :=
      ⟨(List.map f (a :: as)).sum / (a :: as).length - 1, by omega⟩
    rw [hm] at hcon hdm
    have h := sum_map_le_mul f m (a :: as) (fun p hp => by have := hcon p hp; omega)
    rw [Nat.mul_add, Nat.mul_one, Nat.mul_comm] at hdm
    omega

theorem kmeans_succ_last (pixels : List pixel) (k n : Nat) (c : List pixel) :
    kmeans pixels k (n + 1) c = (kmeans pixels k n c).bind (kmeansRound pixels k) := by
  induction n generalizing c with
  | zero =>
    simp only [kmeans, Option.some_bind]
    cases kmeansRound pixels k c <;> rfl
  | succ n ih =>
    rw [kmeans]
    cases h : kmeansRound pixels k c with
    | none => simp [kmeans, h]
    | some c1 =>
      rw [Option.some_bind, ih c1]
      conv_rhs => rw [kmeans, h, Option.some_bind]

theorem kmeans_length (pixels : List pixel) (k n : Nat) (c cs : List pixel)
    (h : kmeans pixels k n c = some cs) : cs.length = c.length := by
  induction n generalizing c with
  | zero =>
    unfold kmeans at h
    rw [← Option.some.inj h]
  | succ n ih =>
    unfold kmeans at h
    obtain ⟨c1, h1, h2⟩ := Option.bind_eq_some.mp h
    unfold kmeansRound at h1
    obtain ⟨cl, _, hcl⟩ := Option.map_eq_some'.mp h1
    rw [ih c1 h2, ← hcl, updateCentroids_length]

/-- After `n` rounds from `c0`, a centroid is either one to which no round assigned a
pixel, or the mean of a non-empty cluster that some round assigned to it. -/
theorem kmeans_history (pixels : List pixel) (k : Nat) (c0 : List pixel)
    (hlen : c0.length = k) (n : Nat) (cs : List pixel)
    (h : kmeans pixels k n c0 = some cs) (i : Nat) (c : pixel) (hi : cs[i]? = some c) :
    (∀ r cs1 cls cl, r < n → kmeans pixels k r c0 = some cs1 →
        assignPixels cs1 pixels (List.replicate k []) = some cls → cls[i]? = some cl →
        cl = [])
      ∨ (∃ r cs1 cls cl, r < n ∧ kmeans pixels k r c0 = some cs1
          ∧ assignPixels cs1 pixels (List.replicate k []) = some cls ∧ cls[i]? = some cl
          ∧ cl ≠ [] ∧ c = meanPixel cl) := by
  induction n generalizing cs c with
  | zero =>
    left
    intro r _ _ _ hr
    omega
  | succ n ih =>
    rw [kmeans_succ_last] at h
    obtain ⟨cs1, h1, h2⟩ := Option.bind_eq_some.mp h
    unfold kmeansRound at h2
    obtain ⟨cls, hcls, hupd⟩ := Option.map_eq_some'.mp h2
    have hl1 : cs1.length = k := by rw [kmeans_length pixels k n c0 cs1 h1, hlen]
    have hil : i < cs1.length := by
      have := (List.getElem?_eq_some.mp hi).1
      rw [← hupd, updateCentroids_length] at this
      exact this
    have hne1 : cs1 ≠ [] := by
      intro he
      rw [he] at hil
      simp at hil
    obtain ⟨out, hout, hol, _, _⟩ := assignPixels_filter cs1 hne1 pixels
      (List.replicate cs1.length []) (by simp)
    rw [hl1, hcls] at hout
    have hcl : cls.length = cs1.length := by rw [Option.some.inj hout, hol]
    have hget : cls[i]? = some cls[i] := List.getElem?_eq_getElem (by omega)
    have hat := updateCentroids_at cls 0 i cs1 cls[i] hget
    rw [Nat.zero_add, hupd, hi] at hat
    by_cases h0 : (cls[i]).length = 0
    · rw [if_pos h0] at hat
      rcases ih cs1 h1 c hat.symm with hall | ⟨r, cs2, cls2, cl2, hr, hk2, ha2, hg2, hne2, hc2⟩
      · left
        intro r cs2 cls2 cl2 hr hk2 ha2 hg2
        by_cases hrn : r < n
        · exact hall r cs2 cls2 cl2 hrn hk2 ha2 hg2
        · have hr2 : r = n := by omega
          subst hr2
          rw [h1] at hk2
          rw [← Option.some.inj hk2, hcls] at ha2
          rw [← Option.some.inj ha2, hget] at hg2
          rw [← Option.some.inj hg2]
          exact List.length_eq_zero.mp h0
      · right
        exact ⟨r, cs2, cls2, cl2, by omega, hk2, ha2, hg2, hne2, hc2⟩
    · rw [if_neg h0, if_pos hil] at hat
      right
      exact ⟨n, cs1, cls, cls[i], by omega, h1, hcls, hget,
        fun he => h0 (by rw [he]; rfl), Option.some.inj hat⟩

/-- A cluster built by the assignment step holds pixels of the list and is no longer
than the list. -/
theorem assignPixels_sub (cs pixels : List pixel) (k : Nat) (cls : List (List pixel))
    (h : assignPixels cs pixels (List.replicate k []) = some cls) (hlen : cs.length = k)
    (i : Nat) (cl : List pixel) (hi : cls[i]? = some cl) :
    (∀ p ∈ cl, p ∈ pixels) ∧ cl.length ≤ pixels.length := by
  have hne1 : cs ≠ [] := by
    intro he
    subst he
    simp only [List.length_nil] at hlen
    subst hlen
    cases pixels with
    | nil =>
      simp only [assignPixels, List.replicate, Option.some.injEq] at h
      rw [← h] at hi
      simp at hi
    | cons p ps => simp [assignPixels] at h
  obtain ⟨out, hout, hol, hfil, _⟩ := assignPixels_filter cs hne1 pixels
    (List.replicate cs.length []) (by simp)
  rw [hlen, h] at hout
  rw [← Option.some.inj hout] at hol hfil
  have hil : i < cs.length := by
    rw [← hol]
    exact (List.getElem?_eq_some.mp hi).1
  have h2 := hfil i [] (by simp [List.getElem?_replicate, hil])
  rw [hi, List.nil_append] at h2
  have h3 := Option.some.inj h2
  constructor
  · intro p hp
    rw [h3] at hp
    exact (List.mem_filter.mp hp).1
  · rw [h3]
    exact List.length_filter_le _ _

theorem centroidsAfter_eq (img : Image) (k : Nat) (c0 : List pixel)
    (h0 : initCentroids (collectPixels img) k = some c0) (n : Nat) :
    centroidsAfter n img (k : Int) = kmeans (collectPixels img) k n c0 := by
  unfold centroidsAfter
  rw [if_neg (by omega), Int.toNat_ofNat, h0, Option.some_bind]

theorem roundClusters_eq (img : Image) (k : Nat) (c0 : List pixel)
    (h0 : initCentroids (collectPixels img) k = some c0) (r : Nat) :
    roundClusters img (k : Int) r
      = (kmeans (collectPixels img) k r c0).bind (fun cs =>
          assignPixels cs (collectPixels img) (List.replicate k [])) := by
  unfold roundClusters
  rw [centroidsAfter_eq img k c0 h0 r, Int.toNat_ofNat]

/-- A centroid that received pixels is the floor mean of a cluster that some round
assigned to it, hence lies between two pixels assigned to it, in any channel `f`. -/
theorem centroid_between (img : Image) (k B : Nat) (hB : B < 4294967296)
    (hpx : ∀ p ∈ collectPixels img, p.chanLe B)
    (hlen : B * (collectPixels img).length < 18446744073709551616)
    (n : Nat) (cs : List pixel) (hcs : centroidsAfter n img (k : Int) = some cs)
    (i : Nat) (c : pixel) (hi : cs[i]? = some c)
    (hever : ∃ p, everAssigned img (k : Int) n i p) :
    ∃ cl : List pixel, cl ≠ [] ∧ (∀ p ∈ cl, everAssigned img (k : Int) n i p)
      ∧ c = floorMean cl := by
  obtain ⟨c0, h0, _⟩ : ∃ c0, initCentroids (collectPixels img) k = some c0
      ∧ kmeans (collectPixels img) k n c0 = some cs := by
    unfold centroidsAfter at hcs
    rw [if_neg (by omega), Int.toNat_ofNat] at hcs
    exact Option.bind_eq_some.mp hcs
  have l0 := (initCentroids_sound (collectPixels img) k c0 h0).1
  rw [centroidsAfter_eq img k c0 h0 n] at hcs
  rcases kmeans_history (collectPixels img) k c0 l0 n cs hcs i c hi with
    hall | ⟨r, cs1, cls, cl, hr, hk1, ha1, hg1, hne1, hc1⟩
  · exfalso
    obtain ⟨p, r, cls, cl, hr, hrc, hg, hp⟩ := hever
    rw [roundClusters_eq img k c0 h0 r] at hrc
    obtain ⟨cs1, hk1, ha1⟩ := Option.bind_eq_some.mp hrc
    rw [hall r cs1 cls cl hr hk1 ha1 hg] at hp
    simp at hp
  · have hl1 : cs1.length = k := by
      rw [kmeans_length (collectPixels img) k r c0 cs1 hk1, l0]
    obtain ⟨hmem, hle⟩ := assignPixels_sub cs1 (collectPixels img) k cls ha1 hl1 i cl hg1
    have hrc : roundClusters img (k : Int) r = some cls := by
      rw [roundClusters_eq img k c0 h0 r, hk1, Option.some_bind]
      exact ha1
    refine ⟨cl, hne1, fun p hp => ⟨r, cls, cl, hr, hrc, hg1, hp⟩, ?_⟩
    rw [hc1]
    apply meanPixel_floorMean B cl hB (fun p hp => hpx p (hmem p hp))
    exact lt_of_le_of_lt (Nat.mul_le_mul_left B hle) hlen

/-- C13: after `n ≥ 1` rounds of `quantize`, for every centroid to which some round so
far assigned a pixel, each channel value lies between the values of that channel in two
pixels that were assigned to it, hence between the minimum and the maximum of that
channel over the pixels ever assigned to it. The `uint64` accumulators wrap, so the
channels are taken to be at most `B < 2^32` with `B * len(pixels) < 2^64`. -/
theorem centroid_within_assigned (img : Image) (k B : Nat) (hB : B < 2 ^ 32)
    (hpx : ∀ p ∈ collectPixels img, p.chanLe B)
    (hlen : B * (collectPixels img).length < 2 ^ 64)
    (n : Nat) (hn : 1 ≤ n) (cs : List pixel)
    (hcs : centroidsAfter n img (k : Int) = some cs)
    (i : Nat) (c : pixel) (hi : cs[i]? = some c)
    (hever : ∃ p, everAssigned img (k : Int) n i p) :
    (∃ p q, everAssigned img (k : Int) n i p ∧ everAssigned img (k : Int) n i q
        ∧ p.R ≤ c.R ∧ c.R ≤ q.R)
      ∧ (∃ p q, everAssigned img (k : Int) n i p ∧ everAssigned img (k : Int) n i q
        ∧ p.G ≤ c.G ∧ c.G ≤ q.G)
      ∧ (∃ p q, everAssigned img (k : Int) n i p ∧ everAssigned img (k : Int) n i q
        ∧ p.B ≤ c.B ∧ c.B ≤ q.B)
      ∧ (∃ p q, everAssigned img (k : Int) n i p ∧ everAssigned img (k : Int) n i q
        ∧ p.A ≤ c.A ∧ c.A ≤ q.A) := by
  have _ := hn
  obtain ⟨cl, hne, hev, hc⟩ := centroid_between img k B (by norm_num at hB; exact hB) hpx
    (by norm_num at hlen; exact hlen) n cs hcs i c hi hever
  rw [hc]
  refine ⟨?_, ?_, ?_, ?_⟩
  · obtain ⟨⟨p, hp, h1⟩, ⟨q, hq, h2⟩⟩ := floor_mean_between pixel.R cl hne
    exact ⟨p, q, hev p hp, hev q hq, h1, h2⟩
  · obtain ⟨⟨p, hp, h1⟩, ⟨q, hq, h2⟩⟩ := floor_mean_between pixel.G cl hne
    exact ⟨p, q, hev p hp, hev q hq, h1, h2⟩
  · obtain ⟨⟨p, hp, h1⟩, ⟨q, hq, h2⟩⟩ := floor_mean_between pixel.B cl hne
    exact ⟨p, q, hev p hp, hev q hq, h1, h2⟩
  · obtain ⟨⟨p, hp, h1⟩, ⟨q, hq, h2⟩⟩ := floor_mean_between pixel.A cl hne
    exact ⟨p, q, hev p hp, hev q hq, h1, h2⟩

/-- Witness for C13: centroid 0 of the 2x2 sample grid after the first of two-colour
rounds, to which the samples 0 and 1000 were assigned. -/
theorem centroid_within_assigned_witness :
    (∃ p q, everAssigned sample2x2 ((2 : Nat) : Int) 1 0 p
        ∧ everAssigned sample2x2 ((2 : Nat) : Int) 1 0 q
        ∧ p.R ≤ (grey 500).R ∧ (grey 500).R ≤ q.R)
      ∧ (∃ p q, everAssigned sample2x2 ((2 : Nat) : Int) 1 0 p
        ∧ everAssigned sample2x2 ((2 : Nat) : Int) 1 0 q
        ∧ p.G ≤ (grey 500).G ∧ (grey 500).G ≤ q.G)
      ∧ (∃ p q, everAssigned sample2x2 ((2 : Nat) : Int) 1 0 p
        ∧ everAssigned sample2x2 ((2 : Nat) : Int) 1 0 q
        ∧ p.B ≤ (grey 500).B ∧ (grey 500).B ≤ q.B)
      ∧ (∃ p q, everAssigned sample2x2 ((2 : Nat) : Int) 1 0 p
        ∧ everAssigned sample2x2 ((2 : Nat) : Int) 1 0 q
        ∧ p.A ≤ (grey 500).A ∧ (grey 500).A ≤ q.A) :=
  centroid_within_assigned sample2x2 2 65535 (by norm_num)
    (by rw [collectPixels_sample2x2]; decide)
    (by rw [collectPixels_sample2x2]; norm_num)
    1 (by decide) [grey 500, grey 52767] (by decide) 0 (grey 500) (by decide)
    ⟨grey 0, 0, [[grey 0, grey 1000], [grey 40000, grey 65535]], [grey 0, grey 1000],
      by decide, by decide, by decide, by decide⟩

/-! ### The 16-bit range of the centroids and the narrowing -/

/-- On a grid with a pixel, the centroid set that `quantize` ends with is not empty. -/
theorem finalCentroids_ne_nil (img : Image) (k : Nat) (cs : List pixel)
    (h : finalCentroids img (k : Int) = some cs) (hne : collectPixels img ≠ []) :
    cs ≠ [] := by
  unfold finalCentroids centroidsAfter at h
  rw [if_neg (by omega), Int.toNat_ofNat] at h
  obtain ⟨c0, h0, h1⟩ := Option.bind_eq_some.mp h
  have hl0 := (initCentroids_sound (collectPixels img) k c0 h0).1
  have hl := kmeans_length (collectPixels img) k 5 c0 cs h1
  rcases Nat.eq_zero_or_pos k with hk | hk
  · exfalso
    subst hk
    rw [List.length_eq_zero.mp hl0] at h1
    unfold kmeans at h1
    rw [kmeansRound_zero (collectPixels img) hne] at h1
    simp at h1
  · intro he
    rw [he] at hl
    simp at hl
    omega

/-- For a 16-bit pixel the conversion `uint8(c >> 8)` keeps every bit of `c >> 8`: it
is `c / 256`, at most 255, in each channel. -/
theorem narrow_exact {c : pixel} (h : c.chan16) :
    ((c.R >>> 8) % 256 = c.R / 256 ∧ (c.G >>> 8) % 256 = c.G / 256
        ∧ (c.B >>> 8) % 256 = c.B / 256 ∧ (c.A >>> 8) % 256 = c.A / 256)
      ∧ (c.R / 256 ≤ 255 ∧ c.G / 256 ≤ 255 ∧ c.B / 256 ≤ 255 ∧ c.A / 256 ≤ 255) := by
  obtain ⟨hd, hb⟩ := narrow_div h
  exact ⟨⟨congrArg RGBA.R hd, congrArg RGBA.G hd, congrArg RGBA.B hd,
    congrArg RGBA.A hd⟩, hb⟩

/-- C19: when every channel of every source pixel is at most 65535, then for every
`k ≥ 0` every centroid channel is at most 65535 after initialisation (`n = 0`) and
after each round (`n ≥ 1`), and these centroid sets exist when `k ≥ 1` and the stride
product does not overflow. Consequently, for the final centroid set `cs`: for every
centroid `c` of `cs` the conversion `uint8(c >> 8)` equals `c / 256` and is at most 255
in each channel; and each cell `(x, y)` of the output of `quantize` is the narrowing of
the centroid `nearest cs (source (x, y))`, a member of `cs`, that is that centroid's
`(R / 256, G / 256, B / 256, A / 256)`, with all four channels in `0..255`. -/
theorem centroids_stay_16bit (img : Image) (k : Nat)
    (himg : ∀ x y, img.Bounds.In x y → (img.At x y).chan16) :
    (∀ n cs, centroidsAfter n img (k : Int) = some cs → ∀ c ∈ cs, c.chan16)
      ∧ (1 ≤ k → strideFits (collectPixels img).length k →
          ∀ n, ∃ cs, centroidsAfter n img (k : Int) = some cs)
      ∧ (∀ cs, finalCentroids img (k : Int) = some cs →
          (∀ c ∈ cs,
            ((c.R >>> 8) % 256 = c.R / 256 ∧ (c.G >>> 8) % 256 = c.G / 256
              ∧ (c.B >>> 8) % 256 = c.B / 256 ∧ (c.A >>> 8) % 256 = c.A / 256)
            ∧ (c.R / 256 ≤ 255 ∧ c.G / 256 ≤ 255 ∧ c.B / 256 ≤ 255 ∧ c.A / 256 ≤ 255))
          ∧ quantize img (k : Int) = some (remap img cs)
          ∧ ∀ x y, img.Bounds.In x y →
              nearest cs (img.At x y) ∈ cs
              ∧ (remap img cs).At x y = narrow (nearest cs (img.At x y))
              ∧ (remap img cs).At x y
                = ⟨(nearest cs (img.At x y)).R / 256, (nearest cs (img.At x y)).G / 256,
                    (nearest cs (img.At x y)).B / 256, (nearest cs (img.At x y)).A / 256⟩
              ∧ ((remap img cs).At x y).R ≤ 255 ∧ ((remap img cs).At x y).G ≤ 255
              ∧ ((remap img cs).At x y).B ≤ 255 ∧ ((remap img cs).At x y).A ≤ 255) := by
  have hpx : ∀ p ∈ collectPixels img, p.chan16 := by
    intro p hp
    obtain ⟨x, y, hin, rfl⟩ := (mem_collectPixels img p).mp hp
    exact himg x y hin
  have hall : ∀ n cs, centroidsAfter n img (k : Int) = some cs → ∀ c ∈ cs, c.chan16 := by
    intro n cs h
    unfold centroidsAfter at h
    rw [if_neg (by omega), Int.toNat_ofNat] at h
    obtain ⟨cs0, h0, h1⟩ := Option.bind_eq_some.mp h
    obtain ⟨hl0, hc0⟩ := initCentroids_chan16 (collectPixels img) hpx k cs0 h0
    exact kmeans_chan16 (collectPixels img) hpx k n cs0 cs hl0 hc0 h1
  refine ⟨hall, ?_, ?_⟩
  · intro hk hfit n
    obtain ⟨cs, hcs, _, _⟩ := centroidsAfter_inv img himg k n hk hfit
    exact ⟨cs, hcs⟩
  · intro cs hcs
    have h16 : ∀ c ∈ cs, c.chan16 := hall 5 cs hcs
    refine ⟨fun c hc => narrow_exact (h16 c hc), ?_, ?_⟩
    · unfold quantize
      rw [hcs]
      rfl
    · intro x y hin
      have hne : cs ≠ [] := finalCentroids_ne_nil img k cs hcs
        (List.ne_nil_of_mem ((mem_collectPixels img _).mpr ⟨x, y, hin, rfl⟩))
      obtain ⟨j, hj⟩ := nearest_firstNearest hne h16 (himg x y hin)
      have hmem : nearest cs (img.At x y) ∈ cs := List.getElem?_mem hj.1
      have hcell : (remap img cs).At x y = narrow (nearest cs (img.At x y)) := by
        rw [(remap_cells img cs).2, if_pos hin]
      obtain ⟨hd, hr, hg, hb, ha⟩ := narrow_div (h16 _ hmem)
      refine ⟨hmem, hcell, ?_, ?_, ?_, ?_, ?_⟩
      · rw [hcell, hd]
      · rw [hcell, hd]
        exact hr
      · rw [hcell, hd]
        exact hg
      · rw [hcell, hd]
        exact hb
      · rw [hcell, hd]
        exact ha

/-- Witness for C19 on the 2x2 sample grid with three colours. -/
theorem centroids_stay_16bit_witness :
    (∀ n cs, centroidsAfter n sample2x2 ((3 : Nat) : Int) = some cs → ∀ c ∈ cs, c.chan16)
      ∧ (1 ≤ 3 → strideFits (collectPixels sample2x2).length 3 →
          ∀ n, ∃ cs, centroidsAfter n sample2x2 ((3 : Nat) : Int) = some cs)
      ∧ (∀ cs, finalCentroids sample2x2 ((3 : Nat) : Int) = some cs →
          (∀ c ∈ cs,
            ((c.R >>> 8) % 256 = c.R / 256 ∧ (c.G >>> 8) % 256 = c.G / 256
              ∧ (c.B >>> 8) % 256 = c.B / 256 ∧ (c.A >>> 8) % 256 = c.A / 256)
            ∧ (c.R / 256 ≤ 255 ∧ c.G / 256 ≤ 255 ∧ c.B / 256 ≤ 255 ∧ c.A / 256 ≤ 255))
          ∧ quantize sample2x2 ((3 : Nat) : Int) = some (remap sample2x2 cs)
          ∧ ∀ x y, sample2x2.Bounds.In x y →
              nearest cs (sample2x2.At x y) ∈ cs
              ∧ (remap sample2x2 cs).At x y = narrow (nearest cs (sample2x2.At x y))
              ∧ (remap sample2x2 cs).At x y
                = ⟨(nearest cs (sample2x2.At x y)).R / 256,
                    (nearest cs (sample2x2.At x y)).G / 256,
                    (nearest cs (sample2x2.At x y)).B / 256,
                    (nearest cs (sample2x2.At x y)).A / 256⟩
              ∧ ((remap sample2x2 cs).At x y).R ≤ 255
              ∧ ((remap sample2x2 cs).At x y).G ≤ 255
              ∧ ((remap sample2x2 cs).At x y).B ≤ 255
              ∧ ((remap sample2x2 cs).At x y).A ≤ 255) :=
  centroids_stay_16bit sample2x2 3 (fun x y _ => sample2x2_chan16 x y)

end GoPixelate
